import Mathlib

/-!
Verification of the SageMaker streaming client
(`metron/core/llm_clients/sagemaker_client.py`).

The file embeds the two components of the source file:

* `LineIterator` — the stateful byte-buffer reader (`__init__`, `__next__`):
  an append-only byte buffer (`io.BytesIO`), a read cursor `read_pos`, a
  `ttft` field (0 = unset), and the remaining transport stream.
* `send_llm_request` — the request driver: environment checks, the
  `max_tokens` → `max_new_tokens` renaming of the sampling parameters, the
  wire payload, the line-consuming loop that accumulates inter-token times,
  and the try/except that turns any failure into an error-populated metrics
  record.

Bytes are numbers (`Nat`); the newline delimiter is byte 10.  Wall-clock
time (`time.monotonic()`) is modelled by a counter `clock`: every call to
the clock returns its current value and increments it, so timestamps are
strictly increasing and, as long as the starting clock is positive, nonzero.
-/

namespace SagemakerClient

/-- A transport event: either a chunk carrying payload bytes
(`"PayloadPart" in chunk`, bytes at `chunk["PayloadPart"]["Bytes"]`) or an
unrecognized event (any other shape; its contents are never inspected by the
reader, we carry them only to show they cannot leak into the output). -/
inductive Chunk where
  | payloadPart (bytes : List Nat)
  | unknown (raw : List Nat)
  deriving DecidableEq

/-- How the transport behaves once the listed chunks are consumed:
`next(byte_iterator)` either raises `StopIteration` (a clean end) or raises
some other exception (a transport failure mid-stream). -/
inductive StreamEnd where
  | exhausted
  | raiseError (msg : String)
  deriving DecidableEq

/-- The reader state of class `LineIterator`: `buffer`/`read_pos`/`ttft`
are the fields of the Python object (`io.BytesIO` is append-only, so the
buffer is the list of all bytes ever written), `chunks`/`ending` are the
not-yet-consumed part of `self.byte_iterator`, and `clock` is the model of
`time.monotonic()`. -/
structure LineIterator where
  buffer : List Nat
  read_pos : Nat
  ttft : Nat
  clock : Nat
  chunks : List Chunk
  ending : StreamEnd
  deriving DecidableEq

/-- `io.BytesIO.readline()` from the current position: the bytes up to and
including the first newline, or everything up to the end of the buffer when
no newline occurs. The argument is the unconsumed region
`buffer[read_pos:]`. -/
def readline : List Nat → List Nat
  | [] => []
  | b :: bs => if b = 10 then [10] else b :: readline bs

/-- Result of one call to `LineIterator.__next__`:
a produced `(line, ttft, timestamp)` triple, a clean `StopIteration`
(end of the line sequence), a propagated transport exception, or
divergence (the call never returns; see `nextAux` below). -/
inductive NextResult where
  | line (bytes : List Nat) (t1 t2 : Nat) (s : LineIterator)
  | stop (s : LineIterator)
  | raises (msg : String) (s : LineIterator)
  | diverge (s : LineIterator)
  deriving DecidableEq

/-- The two return paths at the top of the `while True` loop of
`__next__`, evaluated against the current buffer and cursor:

* normal path — `if line and line[-1] == ord("\n")`: set `ttft` if it is
  still 0, advance the cursor past the delimiter, return the line with the
  delimiter stripped;
* truncation path — `if line and read_pos == nbytes - 1`: the unconsumed
  region is the single final byte of the buffer; advance the cursor past it
  and return it as a line, without touching `ttft`.

`none` means neither path fired and the loop falls through to pulling the
next chunk.  `chunks`/`ending` are only packed into the returned state. -/
def scanResult (buffer : List Nat) (read_pos ttft clock : Nat)
    (chunks : List Chunk) (ending : StreamEnd) : Option NextResult :=
  let line := readline (buffer.drop read_pos)
  if line.getLast? = some 10 then
    let t2 := if ttft = 0 then clock else ttft
    let c2 := if ttft = 0 then clock + 1 else clock
    some (.line line.dropLast t2 c2
      ⟨buffer, read_pos + line.length, t2, c2 + 1, chunks, ending⟩)
  else if line ≠ [] ∧ read_pos = buffer.length - 1 then
    some (.line line ttft clock
      ⟨buffer, read_pos + 1, ttft, clock + 1, chunks, ending⟩)
  else
    none

/-- The loop of `__next__`, by recursion on the remaining chunks.  Each
iteration rescans the buffer from the cursor (`scanResult`); when neither
return path fires it pulls the next chunk: a `PayloadPart` chunk is appended
to the buffer, an unrecognized chunk is logged and skipped, and on
`StopIteration` the call ends the sequence if the cursor is at the buffer
end.  When the cursor is *not* at the buffer end, the Python code executes
`continue`: the rescan then sees exactly the state the just-failed scan saw,
fails the same way, pulls again, gets `StopIteration` again, and so on — the
loop never exits, which the embedding records as `diverge` (certified
against the fuelled translation `nextF` by `nextF_of_diverge` below). -/
def nextAux : List Chunk → List Nat → Nat → Nat → Nat → StreamEnd → NextResult
  | [], buffer, read_pos, ttft, clock, ending =>
    match scanResult buffer read_pos ttft clock [] ending with
    | some r => r
    | none =>
      match ending with
      | .exhausted =>
        if read_pos < buffer.length then
          .diverge ⟨buffer, read_pos, ttft, clock, [], .exhausted⟩
        else
          .stop ⟨buffer, read_pos, ttft, clock, [], .exhausted⟩
      | .raiseError msg =>
        .raises msg ⟨buffer, read_pos, ttft, clock, [], .raiseError msg⟩
  | c :: rest, buffer, read_pos, ttft, clock, ending =>
    match scanResult buffer read_pos ttft clock (c :: rest) ending with
    | some r => r
    | none =>
      match c with
      | .payloadPart bs => nextAux rest (buffer ++ bs) read_pos ttft clock ending
      | .unknown _ => nextAux rest buffer read_pos ttft clock ending

/-- One call of `LineIterator.__next__`. -/
def LineIterator.next (s : LineIterator) : NextResult :=
  nextAux s.chunks s.buffer s.read_pos s.ttft s.clock s.ending

/-- `LineIterator.__init__`: empty buffer, cursor 0, `ttft = 0`, the whole
transport still pending. -/
def LineIterator.init (chunks : List Chunk) (ending : StreamEnd)
    (clock : Nat) : LineIterator :=
  ⟨[], 0, 0, clock, chunks, ending⟩

/-- Fuelled, literal translation of the `while True` loop: one unit of fuel
per loop iteration, `none` when fuel runs out.  Unlike `nextAux` it takes
the `continue` after `StopIteration` at face value and rescans the unchanged
state.  `nextF_of_diverge` and `nextF_of_next` relate it to `nextAux`. -/
def nextF (s : LineIterator) : Nat → Option NextResult
  | 0 => none
  | fuel + 1 =>
    match scanResult s.buffer s.read_pos s.ttft s.clock s.chunks s.ending with
    | some r => some r
    | none =>
      match s.chunks with
      | [] =>
        match s.ending with
        | .exhausted =>
          if s.read_pos < s.buffer.length then
            nextF s fuel
          else
            some (.stop ⟨s.buffer, s.read_pos, s.ttft, s.clock, [], .exhausted⟩)
        | .raiseError msg =>
          some (.raises msg
            ⟨s.buffer, s.read_pos, s.ttft, s.clock, [], .raiseError msg⟩)
      | .payloadPart bs :: rest =>
        nextF ⟨s.buffer ++ bs, s.read_pos, s.ttft, s.clock, rest, s.ending⟩ fuel
      | .unknown _ :: rest =>
        nextF ⟨s.buffer, s.read_pos, s.ttft, s.clock, rest, s.ending⟩ fuel

/-- Size of one pending chunk, for the termination measure: consuming a
payload chunk moves its bytes into the buffer, consuming any chunk costs one
loop step. -/
def chunkSize : Chunk → Nat
  | .payloadPart bs => bs.length + 1
  | .unknown _ => 1

/-- Termination measure for driving the reader: pending chunk mass plus the
unconsumed region of the buffer.  Every produced line strictly decreases
it. -/
def weight (s : LineIterator) : Nat :=
  (s.chunks.map chunkSize).sum + (s.buffer.length - s.read_pos)

/-- Result of iterating the reader to exhaustion: the list of produced
`(line, ttft, timestamp)` triples and how the iteration ended — a clean
`StopIteration`, a propagated transport exception, or a `__next__` call that
never returns. -/
inductive RunResult where
  | finished (lines : List (List Nat × Nat × Nat)) (s : LineIterator)
  | raised (msg : String) (lines : List (List Nat × Nat × Nat)) (s : LineIterator)
  | diverged (lines : List (List Nat × Nat × Nat)) (s : LineIterator)
  deriving DecidableEq

/-- Prepend one produced triple to a run result. -/
def RunResult.prepend (x : List Nat × Nat × Nat) : RunResult → RunResult
  | .finished lines s => .finished (x :: lines) s
  | .raised msg lines s => .raised msg (x :: lines) s
  | .diverged lines s => .diverged (x :: lines) s

/-- Fuelled exhaustive iteration: at most `fuel` calls to `__next__`. -/
def runF : Nat → LineIterator → Option RunResult
  | 0, _ => none
  | fuel + 1, s =>
    match s.next with
    | .line l t1 t2 s2 => (runF fuel s2).map (RunResult.prepend (l, t1, t2))
    | .stop s2 => some (.finished [] s2)
    | .raises msg s2 => some (.raised msg [] s2)
    | .diverge s2 => some (.diverged [] s2)

/-- Iterating the reader to exhaustion.  `weight s + 1` calls always
suffice (`runF_adequate`), so the default branch is unreachable. -/
def run (s : LineIterator) : RunResult :=
  (runF (weight s + 1) s).getD (.diverged [] s)

/-! ## The request driver (`SageMakerClient.send_llm_request`)

Python dicts with string keys are embedded as insertion-ordered association
lists; `os.environ` as an association list of set variables.  The external
collaborators — the boto3 call, `json.loads`, and the tokenizer of the base
class — are parameters of the driver. -/

/-- `d.get(k)` on an association-list dict: the first binding of `k`. -/
def dictGet (d : List (String × Nat)) (k : String) : Option Nat :=
  (d.find? (fun p => p.1 == k)).map (fun p => p.2)

/-- `k in d`. -/
def dictContains (d : List (String × Nat)) (k : String) : Bool :=
  d.any (fun p => p.1 == k)

/-- `d[k] = v`: overwrite the binding in place when the key is present,
append it otherwise (Python dicts keep insertion order). -/
def dictSet (d : List (String × Nat)) (k : String) (v : Nat) :
    List (String × Nat) :=
  if dictContains d k then
    d.map (fun p => if p.1 == k then (k, v) else p)
  else
    d ++ [(k, v)]

/-- `del d[k]`. -/
def dictDel (d : List (String × Nat)) (k : String) : List (String × Nat) :=
  d.filter (fun p => ¬ p.1 == k)

/-- Lines 45–47 of the source: if the caller's sampling parameters contain
`"max_tokens"`, rebind its value under `"max_new_tokens"` and delete the
original key.  This happens on `request_config.sampling_params` itself — the
caller's dict is mutated in place. -/
def renameMaxTokens (sp : List (String × Nat)) : List (String × Nat) :=
  if dictContains sp "max_tokens" then
    dictDel (dictSet sp "max_new_tokens" ((dictGet sp "max_tokens").getD 0))
      "max_tokens"
  else
    sp

/-- `os.environ.get(k)`: `none` when the variable is unset. -/
def environGet (env : List (String × String)) (k : String) : Option String :=
  ((env.find? (fun p => p.1 == k)).map (fun p => p.2))

/-- `not os.environ.get(k)`: true when the variable is unset *or* set to the
empty string (Python truthiness of `None` and `""`). -/
def environFalsy (env : List (String × String)) (k : String) : Bool :=
  match environGet env k with
  | none => true
  | some v => v == ""

/-- The JSON value produced by `json.loads` on the reassembled body
(an external collaborator; the driver only indexes into it). -/
inductive JsonVal where
  | null
  | str (s : String)
  | num (n : Int)
  | arr (elems : List JsonVal)
  | obj (fields : List (String × JsonVal))

/-- `resp[0]` — the first element of the decoded JSON array; anything else
raises (`TypeError` / `IndexError`). -/
def jsonIndexZero : JsonVal → Except String JsonVal
  | .arr (x :: _) => .ok x
  | .arr [] => .error "list index out of range"
  | _ => .error "not a list"

/-- `x[k]` on a decoded JSON object; a missing key or a non-object raises
(`KeyError` / `TypeError`). -/
def jsonField (k : String) : JsonVal → Except String JsonVal
  | .obj fields =>
    match fields.find? (fun p => p.1 == k) with
    | some p => .ok p.2
    | none => .error ("KeyError: " ++ k)
  | _ => .error "not an object"

/-- The value must be a JSON string to become `generated_text`. -/
def jsonAsString : JsonVal → Except String String
  | .str s => .ok s
  | _ => .error "not a string"

/-- Line 86 of the source: `resp[0]["generation"]["content"]`. -/
def extractContent (resp : JsonVal) : Except String String :=
  jsonIndexZero resp >>= jsonField "generation" >>= jsonField "content"
    >>= jsonAsString

/-- The request configuration the caller passes in (prompt with its token
count, endpoint/model name, sampling parameters). -/
structure RequestConfig where
  prompt : String × Nat
  model : String
  sampling_params : List (String × Nat)
  deriving DecidableEq

/-- The metrics record the driver always returns (`RequestMetrics`). -/
structure RequestMetrics where
  inter_token_times : List Nat
  num_prompt_tokens : Nat
  num_output_tokens : Nat
  error_code : Option Nat
  error_msg : Option String
  deriving DecidableEq

/-- The wire payload of lines 49–59: the `inputs` conversation and the
`parameters` block (a copy of the — by then renamed — sampling params). -/
structure WirePayload where
  inputs : List (List (String × String))
  parameters : List (String × Nat)
  deriving DecidableEq

/-- Lines 49–59: build the JSON body that is transmitted. -/
def buildWirePayload (prompt : String) (params : List (String × Nat)) :
    WirePayload :=
  ⟨[[("system", ""), ("user", prompt)]], params⟩

/-- Behaviour of `sm_runtime.invoke_endpoint_with_response_stream` (external
collaborator): it either raises, or returns a response whose `"Body"` is the
event stream the reader consumes. -/
inductive InvokeOutcome where
  | raises (msg : String)
  | ok (chunks : List Chunk) (ending : StreamEnd)

/-- How the `for line, _, _ in LineIterator(event_stream)` loop of lines
79–84 ends: normally (`StopIteration`), by a propagated exception, or never
(the reader's `__next__` diverges).  It carries the accumulated body bytes
and inter-token times. -/
inductive LoopResult where
  | done (json_byte : List Nat) (itt : List Nat) (s : LineIterator)
  | failed (msg : String) (json_byte : List Nat) (itt : List Nat) (s : LineIterator)
  | hang (json_byte : List Nat) (itt : List Nat) (s : LineIterator)
  deriving DecidableEq

/-- Fuelled driver loop.  Per iteration: `__next__` produces a line (its
clock calls are inside `next`), then the body appends the line's bytes to
`json_byte`, appends `time.monotonic() - most_recent_received_token_time` to
`inter_token_times` and refreshes `most_recent_received_token_time` — two
further clock calls, written back into the reader's clock. -/
def driveLoopF : Nat → LineIterator → List Nat → List Nat → Nat → Option LoopResult
  | 0, _, _, _, _ => none
  | fuel + 1, s, json_byte, itt, most_recent =>
    match s.next with
    | .line l _ _ s2 =>
      driveLoopF fuel { s2 with clock := s2.clock + 2 } (json_byte ++ l)
        (itt ++ [s2.clock - most_recent]) (s2.clock + 1)
    | .stop s2 => some (.done json_byte itt s2)
    | .raises msg s2 => some (.failed msg json_byte itt s2)
    | .diverge s2 => some (.hang json_byte itt s2)

/-- The driver loop of lines 78–84; `weight s + 1` iterations always
suffice (`driveLoopF_adequate`), so the default branch is unreachable. -/
def driveLoop (s : LineIterator) (json_byte : List Nat) (itt : List Nat)
    (most_recent : Nat) : LoopResult :=
  (driveLoopF (weight s + 1) s json_byte itt most_recent).getD
    (.hang json_byte itt s)

/-- What `send_llm_request` does, seen from the caller: raise a `ValueError`
for a missing configuration value, return the metrics / generated-text pair
(together with the request config, whose sampling params it may have mutated
in place), or never return because the reader's `__next__` hangs. -/
inductive SendResult where
  | configError (msg : String)
  | returns (metrics : RequestMetrics) (text : String) (cfg : RequestConfig)
  | hangs
  deriving DecidableEq

/-- `SageMakerClient.send_llm_request`, lines 21–101.  `env` models
`os.environ`; `json_loads` the `json` module; `get_token_length` the base
class tokenizer; `invoke` the boto3 streaming call; `clock` the value
`time.monotonic()` would return next.  Field-by-field:

1. the three environment checks, in source order, each raising a
   `ValueError` naming the variable;
2. the in-place `max_tokens` → `max_new_tokens` renaming and the wire
   payload (built but consumed only by the transport);
3. `most_recent_received_token_time = time.monotonic()`;
4. the `try` block: invoke, drain the `LineIterator`, decode the body,
   extract `resp[0]["generation"]["content"]`, count tokens;
5. the `except` block: `error_msg = str(e)`, `error_response_code = 500`,
   keeping `inter_token_times` as accumulated and `generated_text = ""`;
6. the `RequestMetrics` built from whatever the two paths left behind. -/
def send_llm_request (env : List (String × String))
    (json_loads : List Nat → Except String JsonVal)
    (get_token_length : String → Nat) (invoke : InvokeOutcome)
    (request_config : RequestConfig) (clock : Nat) : SendResult :=
  if environFalsy env "AWS_ACCESS_KEY_ID" then
    .configError "AWS_ACCESS_KEY_ID must be set."
  else if environFalsy env "AWS_SECRET_ACCESS_KEY" then
    .configError "AWS_SECRET_ACCESS_KEY must be set."
  else if environFalsy env "AWS_REGION_NAME" then
    .configError "AWS_REGION_NAME must be set."
  else
    let prompt := request_config.prompt.1
    let prompt_len := request_config.prompt.2
    let sampling_params := renameMaxTokens request_config.sampling_params
    let cfg2 : RequestConfig := { request_config with sampling_params := sampling_params }
    let _message := buildWirePayload prompt sampling_params
    let most_recent := clock
    match invoke with
    | .raises msg =>
      .returns ⟨[], prompt_len, 0, some 500, some msg⟩ "" cfg2
    | .ok chunks ending =>
      match driveLoop (LineIterator.init chunks ending (clock + 1)) [] []
          most_recent with
      | .hang _ _ _ => .hangs
      | .failed msg _ itt _ =>
        .returns ⟨itt, prompt_len, 0, some 500, some msg⟩ "" cfg2
      | .done json_byte itt _ =>
        match json_loads json_byte >>= extractContent with
        | .error msg =>
          .returns ⟨itt, prompt_len, 0, some 500, some msg⟩ "" cfg2
        | .ok generated_text =>
          .returns
            ⟨itt, prompt_len, get_token_length generated_text, none, none⟩
            generated_text cfg2

/-! ## Basic lemmas about `readline` and `scanResult` -/

theorem mem_of_getLast?_eq : ∀ (l : List Nat) (a : Nat), l.getLast? = some a → a ∈ l
  | [], _, h => by simp at h
  | [b], a, h => by simp at h; simp [h]
  | b :: c :: l, a, h => by
    rw [List.getLast?_cons_cons] at h
    exact List.mem_cons_of_mem b (mem_of_getLast?_eq (c :: l) a h)

theorem getLast?_no_delim {l : List Nat} (h : (10 : Nat) ∉ l) :
    l.getLast? ≠ some 10 :=
  fun hc => h (mem_of_getLast?_eq l 10 hc)

theorem readline_no_delim {l : List Nat} (h : (10 : Nat) ∉ l) : readline l = l := by
  induction l with
  | nil => rfl
  | cons b bs ih =>
    have hb : ¬ b = 10 := fun hb => h (hb ▸ List.mem_cons_self b bs)
    have hbs : (10 : Nat) ∉ bs := fun hm => h (List.mem_cons_of_mem b hm)
    simp [readline, hb, ih hbs]

theorem readline_delim {l : List Nat} (r : List Nat) (h : (10 : Nat) ∉ l) :
    readline (l ++ 10 :: r) = l ++ [10] := by
  induction l with
  | nil => simp [readline]
  | cons b bs ih =>
    have hb : ¬ b = 10 := fun hb => h (hb ▸ List.mem_cons_self b bs)
    have hbs : (10 : Nat) ∉ bs := fun hm => h (List.mem_cons_of_mem b hm)
    simp [readline, hb, ih hbs]

theorem scanResult_empty {buffer : List Nat} {p : Nat} (t c : Nat)
    (ch : List Chunk) (e : StreamEnd) (h : buffer.drop p = []) :
    scanResult buffer p t c ch e = none := by
  simp [scanResult, h, readline]

theorem scanResult_long {buffer : List Nat} {p : Nat} {r : List Nat} (t c : Nat)
    (ch : List Chunk) (e : StreamEnd) (hr : buffer.drop p = r)
    (h10 : (10 : Nat) ∉ r) (hlen : 2 ≤ r.length) :
    scanResult buffer p t c ch e = none := by
  have h1 : readline (buffer.drop p) = r := by
    rw [hr]; exact readline_no_delim h10
  have h2 : r.getLast? ≠ some 10 := getLast?_no_delim h10
  have h3 : (buffer.drop p).length = buffer.length - p := List.length_drop p buffer
  rw [hr] at h3
  have h4 : ¬ p = buffer.length - 1 := by omega
  simp [scanResult, h1, h2, h4]

theorem scanResult_delim {buffer : List Nat} {p : Nat} {l : List Nat}
    (r : List Nat) (t c : Nat) (ch : List Chunk) (e : StreamEnd)
    (h10 : (10 : Nat) ∉ l) (hr : buffer.drop p = l ++ 10 :: r) :
    scanResult buffer p t c ch e =
      some (.line l (if t = 0 then c else t) (if t = 0 then c + 1 else c)
        ⟨buffer, p + (l.length + 1), if t = 0 then c else t,
          (if t = 0 then c + 1 else c) + 1, ch, e⟩) := by
  have h1 : readline (buffer.drop p) = l ++ [10] := by
    rw [hr]; exact readline_delim r h10
  simp [scanResult, h1]

theorem scanResult_single {buffer : List Nat} {p x : Nat} (t c : Nat)
    (ch : List Chunk) (e : StreamEnd) (hx : x ≠ 10)
    (hr : buffer.drop p = [x]) :
    scanResult buffer p t c ch e =
      some (.line [x] t c ⟨buffer, p + 1, t, c + 1, ch, e⟩) := by
  have h10 : (10 : Nat) ∉ [x] := by
    simp
    omega
  have h1 : readline (buffer.drop p) = [x] := by
    rw [hr]; exact readline_no_delim h10
  have h3 : (buffer.drop p).length = buffer.length - p := List.length_drop p buffer
  rw [hr] at h3
  simp only [List.length_singleton] at h3
  have hp : p = buffer.length - 1 := by omega
  simp only [scanResult]
  rw [h1, if_neg (by simp; omega), if_pos ⟨by simp, hp⟩]

/-- Whether neither return path of the scan fires depends only on the buffer
and the cursor. -/
def scanNone (buffer : List Nat) (p : Nat) : Prop :=
  (readline (buffer.drop p)).getLast? ≠ some 10 ∧
    ¬(readline (buffer.drop p) ≠ [] ∧ p = buffer.length - 1)

theorem scanResult_eq_none_iff {buffer : List Nat} {p : Nat} (t c : Nat)
    (ch : List Chunk) (e : StreamEnd) :
    scanResult buffer p t c ch e = none ↔ scanNone buffer p := by
  simp only [scanResult, scanNone]
  by_cases h1 : (readline (buffer.drop p)).getLast? = some 10
  · simp [h1]
  · by_cases h2 : readline (buffer.drop p) ≠ [] ∧ p = buffer.length - 1
    · rw [if_neg h1, if_pos h2]
      constructor
      · intro hc
        exact (Option.some_ne_none _ hc).elim
      · intro hc
        exact (hc.2 h2).elim
    · rw [if_neg h1, if_neg h2]
      simp [h1, h2]

/-! ## Unfolding and shape lemmas for `nextAux` -/

theorem nextAux_nil (buffer : List Nat) (p t c : Nat) (e : StreamEnd) :
    nextAux [] buffer p t c e =
      (match scanResult buffer p t c [] e with
       | some r => r
       | none =>
         match e with
         | .exhausted =>
           if p < buffer.length then .diverge ⟨buffer, p, t, c, [], .exhausted⟩
           else .stop ⟨buffer, p, t, c, [], .exhausted⟩
         | .raiseError msg => .raises msg ⟨buffer, p, t, c, [], .raiseError msg⟩) :=
  rfl

theorem nextAux_cons (ch : Chunk) (rest : List Chunk) (buffer : List Nat)
    (p t c : Nat) (e : StreamEnd) :
    nextAux (ch :: rest) buffer p t c e =
      (match scanResult buffer p t c (ch :: rest) e with
       | some r => r
       | none =>
         match ch with
         | .payloadPart bs => nextAux rest (buffer ++ bs) p t c e
         | .unknown _ => nextAux rest buffer p t c e) :=
  rfl

theorem nextAux_nil_stop {buffer : List Nat} {p : Nat} (t c : Nat)
    (h : buffer.length ≤ p) :
    nextAux [] buffer p t c .exhausted =
      .stop ⟨buffer, p, t, c, [], .exhausted⟩ := by
  rw [nextAux_nil,
    scanResult_empty t c [] .exhausted (List.drop_eq_nil_of_le h)]
  simp [Nat.not_lt.mpr h]

theorem nextAux_nil_diverge {buffer : List Nat} {p : Nat} {r : List Nat}
    (t c : Nat) (hr : buffer.drop p = r) (h10 : (10 : Nat) ∉ r)
    (hlen : 2 ≤ r.length) :
    nextAux [] buffer p t c .exhausted =
      .diverge ⟨buffer, p, t, c, [], .exhausted⟩ := by
  have h3 : (buffer.drop p).length = buffer.length - p := List.length_drop p buffer
  rw [hr] at h3
  rw [nextAux_nil, scanResult_long t c [] .exhausted hr h10 hlen]
  simp only []
  rw [if_pos (by omega)]

theorem nextAux_cons_payload {buffer : List Nat} {p : Nat} (t c : Nat)
    {bs : List Nat} {rest : List Chunk} {e : StreamEnd}
    (hscan : scanNone buffer p) :
    nextAux (.payloadPart bs :: rest) buffer p t c e =
      nextAux rest (buffer ++ bs) p t c e := by
  rw [nextAux_cons,
    (scanResult_eq_none_iff t c (.payloadPart bs :: rest) e).mpr hscan]

theorem nextAux_cons_unknown {buffer : List Nat} {p : Nat} (t c : Nat)
    {raw : List Nat} {rest : List Chunk} {e : StreamEnd}
    (hscan : scanNone buffer p) :
    nextAux (.unknown raw :: rest) buffer p t c e =
      nextAux rest buffer p t c e := by
  rw [nextAux_cons,
    (scanResult_eq_none_iff t c (.unknown raw :: rest) e).mpr hscan]

theorem readline_length_le : ∀ (r : List Nat), (readline r).length ≤ r.length
  | [] => Nat.le_refl 0
  | b :: bs => by
    simp only [readline]
    split
    · simp
    · simpa using readline_length_le bs

theorem region_ne_nil_of_readline {r : List Nat} (h : readline r ≠ []) :
    r ≠ [] := by
  intro hc
  rw [hc] at h
  exact h rfl

/-- Every `some` result of the scan is a produced line over the same buffer
and chunk list, with a strictly advanced cursor that stays within the
buffer. -/
theorem scanResult_line_shape {buffer : List Nat} {p t c : Nat}
    {ch : List Chunk} {e : StreamEnd} {res : NextResult}
    (h : scanResult buffer p t c ch e = some res) :
    ∃ l t1 t2 p2 t3 c3, res = .line l t1 t2 ⟨buffer, p2, t3, c3, ch, e⟩ ∧
      p < p2 ∧ p2 ≤ buffer.length ∧ p < buffer.length := by
  have hlen : (buffer.drop p).length = buffer.length - p := List.length_drop p buffer
  simp only [scanResult] at h
  split at h
  · rename_i h1
    have hne : readline (buffer.drop p) ≠ [] := by
      intro hc
      rw [hc] at h1
      simp at h1
    have hrne : buffer.drop p ≠ [] := region_ne_nil_of_readline hne
    have hplen : p < buffer.length := by
      have : (buffer.drop p).length ≠ 0 := fun hc => hrne (List.eq_nil_of_length_eq_zero hc)
      omega
    have hle : (readline (buffer.drop p)).length ≤ buffer.length - p := by
      rw [← hlen]; exact readline_length_le (buffer.drop p)
    have hpos : 0 < (readline (buffer.drop p)).length :=
      List.length_pos.mpr hne
    exact ⟨(readline (buffer.drop p)).dropLast, if t = 0 then c else t,
      if t = 0 then c + 1 else c, p + (readline (buffer.drop p)).length,
      if t = 0 then c else t, (if t = 0 then c + 1 else c) + 1,
      (Option.some.inj h).symm, by omega, by omega, hplen⟩
  · split at h
    · rename_i h1 h2
      have hrne : buffer.drop p ≠ [] := region_ne_nil_of_readline h2.1
      have hplen : p < buffer.length := by
        have : (buffer.drop p).length ≠ 0 := fun hc => hrne (List.eq_nil_of_length_eq_zero hc)
        omega
      refine ⟨readline (buffer.drop p), t, c, p + 1, t, c + 1, ?_, by omega,
        by omega, hplen⟩
      exact (Option.some.inj h).symm
    · exact absurd h (by simp)

/-- Producing a line strictly decreases the termination measure. -/
theorem nextAux_line_weight : ∀ (chunks : List Chunk) (buffer : List Nat)
    (p t c : Nat) (e : StreamEnd) {l : List Nat} {t1 t2 : Nat}
    {s2 : LineIterator}, nextAux chunks buffer p t c e = .line l t1 t2 s2 →
    weight s2 < (chunks.map chunkSize).sum + (buffer.length - p) := by
  intro chunks
  induction chunks with
  | nil =>
    intro buffer p t c e l t1 t2 s2 h
    rw [nextAux_nil] at h
    cases hs : scanResult buffer p t c [] e with
    | some res =>
      rw [hs] at h
      obtain ⟨l3, t4, t5, p2, t6, c6, hres, hlt, hle, hplen⟩ :=
        scanResult_line_shape hs
      rw [hres] at h
      cases h
      simp [weight]
      omega
    | none =>
      rw [hs] at h
      cases e with
      | exhausted =>
        by_cases hp : p < buffer.length
        · rw [if_pos hp] at h
          exact absurd h (by simp)
        · rw [if_neg hp] at h
          exact absurd h (by simp)
      | raiseError msg => exact absurd h (by simp)
  | cons ch rest ih =>
    intro buffer p t c e l t1 t2 s2 h
    rw [nextAux_cons] at h
    cases hs : scanResult buffer p t c (ch :: rest) e with
    | some res =>
      rw [hs] at h
      obtain ⟨l3, t4, t5, p2, t6, c6, hres, hlt, hle, hplen⟩ :=
        scanResult_line_shape hs
      rw [hres] at h
      cases h
      simp [weight]
      omega
    | none =>
      rw [hs] at h
      cases ch with
      | payloadPart bs =>
        have := ih (buffer ++ bs) p t c e h
        have hl : (buffer ++ bs).length = buffer.length + bs.length :=
          List.length_append buffer bs
        simp only [List.map_cons, List.sum_cons, chunkSize]
        omega
      | unknown raw =>
        have := ih buffer p t c e h
        simp only [List.map_cons, List.sum_cons, chunkSize]
        omega

theorem next_line_weight {s : LineIterator} {l : List Nat} {t1 t2 : Nat}
    {s2 : LineIterator} (h : s.next = .line l t1 t2 s2) :
    weight s2 < weight s :=
  nextAux_line_weight s.chunks s.buffer s.read_pos s.ttft s.clock s.ending h

/-! ## Total iteration: `run` computes `runF` with always-sufficient fuel -/

theorem runF_isSome : ∀ (fuel : Nat) (s : LineIterator), weight s < fuel →
    (runF fuel s).isSome = true := by
  intro fuel
  induction fuel with
  | zero => intro s h; omega
  | succ n ih =>
    intro s h
    cases hn : s.next with
    | line l t1 t2 s2 =>
      have hw := next_line_weight hn
      have h3 := ih s2 (by omega)
      cases hr : runF n s2 with
      | none => rw [hr] at h3; simp at h3
      | some r => simp [runF, hn, hr]
    | stop s2 => simp [runF, hn]
    | raises msg s2 => simp [runF, hn]
    | diverge s2 => simp [runF, hn]

theorem runF_congr_fuel : ∀ (f1 f2 : Nat) (s : LineIterator),
    weight s < f1 → weight s < f2 → runF f1 s = runF f2 s := by
  intro f1
  induction f1 with
  | zero => intro f2 s h; omega
  | succ n ih =>
    intro f2 s h1 h2
    cases f2 with
    | zero => omega
    | succ m =>
      cases hn : s.next with
      | line l t1 t2 s2 =>
        have hw := next_line_weight hn
        simp only [runF, hn]
        rw [ih m s2 (by omega) (by omega)]
      | stop s2 => simp only [runF, hn]
      | raises msg s2 => simp only [runF, hn]
      | diverge s2 => simp only [runF, hn]

theorem runF_run {s : LineIterator} {fuel : Nat} (h : weight s < fuel) :
    runF fuel s = some (run s) := by
  have h1 : runF fuel s = runF (weight s + 1) s :=
    runF_congr_fuel fuel (weight s + 1) s h (by omega)
  have h2 := runF_isSome (weight s + 1) s (by omega)
  cases hr : runF (weight s + 1) s with
  | none => rw [hr] at h2; simp at h2
  | some r =>
    rw [h1, hr]
    unfold run
    rw [hr]
    rfl

/-- The one-step unfolding of exhaustive iteration. -/
theorem run_eq (s : LineIterator) :
    run s =
      (match s.next with
       | .line l t1 t2 s2 => (run s2).prepend (l, t1, t2)
       | .stop s2 => .finished [] s2
       | .raises msg s2 => .raised msg [] s2
       | .diverge s2 => .diverged [] s2) := by
  have h1 : runF (weight s + 1) s = some (run s) := runF_run (by omega)
  cases hn : s.next with
  | line l t1 t2 s2 =>
    have hw := next_line_weight hn
    have h2 : runF (weight s + 1) s =
        (runF (weight s) s2).map (RunResult.prepend (l, t1, t2)) := by
      simp only [runF, hn]
    have h3 : runF (weight s) s2 = some (run s2) := runF_run (by omega)
    rw [h2, h3] at h1
    simp only [Option.map_some'] at h1
    exact (Option.some.inj h1).symm
  | stop s2 =>
    have h2 : runF (weight s + 1) s = some (.finished [] s2) := by
      simp only [runF, hn]
    rw [h2] at h1
    exact (Option.some.inj h1).symm
  | raises msg s2 =>
    have h2 : runF (weight s + 1) s = some (.raised msg [] s2) := by
      simp only [runF, hn]
    rw [h2] at h1
    exact (Option.some.inj h1).symm
  | diverge s2 =>
    have h2 : runF (weight s + 1) s = some (.diverged [] s2) := by
      simp only [runF, hn]
    rw [h2] at h1
    exact (Option.some.inj h1).symm

theorem run_congr {s1 s2 : LineIterator} (h : s1.next = s2.next) :
    run s1 = run s2 := by
  rw [run_eq s1, run_eq s2, h]

theorem run_eq_line {s s2 : LineIterator} {l : List Nat} {t1 t2 : Nat}
    (h : s.next = .line l t1 t2 s2) :
    run s = (run s2).prepend (l, t1, t2) := by
  rw [run_eq, h]

theorem run_eq_stop {s s2 : LineIterator} (h : s.next = .stop s2) :
    run s = .finished [] s2 := by
  rw [run_eq, h]

theorem run_eq_raises {s s2 : LineIterator} {msg : String}
    (h : s.next = .raises msg s2) : run s = .raised msg [] s2 := by
  rw [run_eq, h]

theorem run_eq_diverge {s s2 : LineIterator} (h : s.next = .diverge s2) :
    run s = .diverged [] s2 := by
  rw [run_eq, h]

/-! ## The `diverge` constructor certified against the fuelled translation -/

theorem nextF_succ (buffer : List Nat) (p t c : Nat) (chunks : List Chunk)
    (e : StreamEnd) (fuel : Nat) :
    nextF ⟨buffer, p, t, c, chunks, e⟩ (fuel + 1) =
      (match scanResult buffer p t c chunks e with
       | some r => some r
       | none =>
         match chunks with
         | [] =>
           match e with
           | .exhausted =>
             if p < buffer.length then nextF ⟨buffer, p, t, c, chunks, e⟩ fuel
             else some (.stop ⟨buffer, p, t, c, [], .exhausted⟩)
           | .raiseError msg =>
             some (.raises msg ⟨buffer, p, t, c, [], .raiseError msg⟩)
         | .payloadPart bs :: rest => nextF ⟨buffer ++ bs, p, t, c, rest, e⟩ fuel
         | .unknown _ :: rest => nextF ⟨buffer, p, t, c, rest, e⟩ fuel) :=
  rfl

theorem nextF_none_of_scanNone : ∀ (fuel : Nat) (buffer : List Nat)
    (p t c : Nat), scanNone buffer p → p < buffer.length →
    nextF ⟨buffer, p, t, c, [], .exhausted⟩ fuel = none := by
  intro fuel
  induction fuel with
  | zero => intros; rfl
  | succ n ih =>
    intro buffer p t c hs hp
    rw [nextF_succ,
      (scanResult_eq_none_iff t c [] StreamEnd.exhausted).mpr hs]
    simp only [if_pos hp]
    exact ih buffer p t c hs hp

/-- When the embedding says a `__next__` call diverges, the literal fuelled
translation of the loop indeed exhausts every amount of fuel. -/
theorem nextF_of_diverge : ∀ (chunks : List Chunk) (buffer : List Nat)
    (p t c : Nat) (e : StreamEnd) {s2 : LineIterator},
    nextAux chunks buffer p t c e = .diverge s2 →
    ∀ fuel, nextF ⟨buffer, p, t, c, chunks, e⟩ fuel = none := by
  intro chunks
  induction chunks with
  | nil =>
    intro buffer p t c e s2 h fuel
    rw [nextAux_nil] at h
    cases hs : scanResult buffer p t c [] e with
    | some res =>
      rw [hs] at h
      obtain ⟨l3, t4, t5, p2, t6, c6, hres, _, _, _⟩ := scanResult_line_shape hs
      rw [hres] at h
      exact absurd h (by simp)
    | none =>
      rw [hs] at h
      have hsn := (scanResult_eq_none_iff t c [] e).mp hs
      cases e with
      | exhausted =>
        by_cases hp : p < buffer.length
        · exact nextF_none_of_scanNone fuel buffer p t c hsn hp
        · rw [if_neg hp] at h
          exact absurd h (by simp)
      | raiseError msg => exact absurd h (by simp)
  | cons ch rest ih =>
    intro buffer p t c e s2 h fuel
    rw [nextAux_cons] at h
    cases hs : scanResult buffer p t c (ch :: rest) e with
    | some res =>
      rw [hs] at h
      obtain ⟨l3, t4, t5, p2, t6, c6, hres, _, _, _⟩ := scanResult_line_shape hs
      rw [hres] at h
      exact absurd h (by simp)
    | none =>
      rw [hs] at h
      cases fuel with
      | zero => rfl
      | succ n =>
        rw [nextF_succ, hs]
        cases ch with
        | payloadPart bs => exact ih (buffer ++ bs) p t c e h n
        | unknown raw => exact ih buffer p t c e h n

/-- Conversely, a `__next__` call the embedding does not mark divergent is
reproduced verbatim by the fuelled translation, with one unit of fuel per
pending chunk. -/
theorem nextF_of_next : ∀ (chunks : List Chunk) (buffer : List Nat)
    (p t c : Nat) (e : StreamEnd) {r : NextResult},
    nextAux chunks buffer p t c e = r → (∀ s2, r ≠ .diverge s2) →
    nextF ⟨buffer, p, t, c, chunks, e⟩ (chunks.length + 1) = some r := by
  intro chunks
  induction chunks with
  | nil =>
    intro buffer p t c e r h hnd
    rw [nextAux_nil] at h
    rw [show ([] : List Chunk).length + 1 = 0 + 1 from rfl, nextF_succ]
    cases hs : scanResult buffer p t c [] e with
    | some res =>
      rw [hs] at h
      have hres : res = r := h
      exact congrArg some hres
    | none =>
      rw [hs] at h
      cases e with
      | exhausted =>
        by_cases hp : p < buffer.length
        · rw [if_pos hp] at h
          exact absurd h.symm (hnd _)
        · rw [if_neg hp] at h
          have hres : NextResult.stop ⟨buffer, p, t, c, [], .exhausted⟩ = r := h
          show (if p < buffer.length then
              nextF ⟨buffer, p, t, c, [], StreamEnd.exhausted⟩ 0
            else some (.stop ⟨buffer, p, t, c, [], .exhausted⟩)) = some r
          rw [if_neg hp, hres]
      | raiseError msg =>
        have hres : NextResult.raises msg ⟨buffer, p, t, c, [], .raiseError msg⟩ = r := h
        exact congrArg some hres
  | cons ch rest ih =>
    intro buffer p t c e r h hnd
    rw [nextAux_cons] at h
    rw [show (ch :: rest).length + 1 = rest.length + 1 + 1 from rfl, nextF_succ]
    cases hs : scanResult buffer p t c (ch :: rest) e with
    | some res =>
      rw [hs] at h
      have hres : res = r := h
      exact congrArg some hres
    | none =>
      rw [hs] at h
      cases ch with
      | payloadPart bs => exact ih (buffer ++ bs) p t c e h hnd
      | unknown raw => exact ih buffer p t c e h hnd

/-! ## Draining a fully-buffered stream -/

theorem next_mk (buffer : List Nat) (p t c : Nat) (chunks : List Chunk)
    (e : StreamEnd) :
    (⟨buffer, p, t, c, chunks, e⟩ : LineIterator).next =
      nextAux chunks buffer p t c e :=
  rfl

/-- Concatenation of newline-terminated segments. -/
def segsJoin (segs : List (List Nat)) : List Nat :=
  (segs.map (fun l => l ++ [10])).flatten

theorem segsJoin_nil : segsJoin [] = [] := rfl

theorem segsJoin_cons (seg : List Nat) (rest : List (List Nat)) :
    segsJoin (seg :: rest) = seg ++ 10 :: segsJoin rest := by
  simp [segsJoin]

/-- Once the transport is exhausted, a buffer whose unconsumed region is a
list of newline-terminated segments followed by an empty or one-byte
undelimited tail drains to exactly those segments plus (when present) the
tail byte as a final line. -/
theorem run_drain : ∀ (segs : List (List Nat)), (∀ l ∈ segs, (10 : Nat) ∉ l) →
    ∀ (buffer : List Nat) (p t c : Nat) (tail : List Nat),
    buffer.drop p = segsJoin segs ++ tail →
    (tail = [] ∨ ∃ x, x ≠ 10 ∧ tail = [x]) →
    ∃ lines s2, run ⟨buffer, p, t, c, [], .exhausted⟩ = .finished lines s2 ∧
      lines.map (fun q => q.1) = segs ++ (if tail = [] then [] else [tail]) := by
  intro segs
  induction segs with
  | nil =>
    intro hf buffer p t c tail hd htail
    rw [segsJoin_nil, List.nil_append] at hd
    cases htail with
    | inl h0 =>
      subst h0
      have hlen : buffer.length ≤ p := by
        have h5 := List.length_drop p buffer
        rw [hd] at h5
        simp at h5
        omega
      refine ⟨[], ⟨buffer, p, t, c, [], .exhausted⟩, ?_, by simp⟩
      rw [run_eq, next_mk, nextAux_nil_stop t c hlen]
    | inr hex =>
      obtain ⟨x, hx, htail⟩ := hex
      subst htail
      have hn : nextAux [] buffer p t c .exhausted =
          .line [x] t c ⟨buffer, p + 1, t, c + 1, [], .exhausted⟩ := by
        rw [nextAux_nil, scanResult_single t c [] .exhausted hx hd]
      have hlen2 : buffer.length ≤ p + 1 := by
        have h5 := List.length_drop p buffer
        rw [hd] at h5
        simp at h5
        omega
      refine ⟨[([x], t, c)], ⟨buffer, p + 1, t, c + 1, [], .exhausted⟩, ?_,
        by simp⟩
      have e1 : run (⟨buffer, p, t, c, [], .exhausted⟩ : LineIterator) =
          (run ⟨buffer, p + 1, t, c + 1, [], .exhausted⟩).prepend ([x], t, c) :=
        run_eq_line (by rw [next_mk]; exact hn)
      have e2 : run (⟨buffer, p + 1, t, c + 1, [], .exhausted⟩ : LineIterator) =
          .finished [] ⟨buffer, p + 1, t, c + 1, [], .exhausted⟩ :=
        run_eq_stop (by rw [next_mk]; exact nextAux_nil_stop t (c + 1) hlen2)
      rw [e1, e2]
      rfl
  | cons seg rest ih =>
    intro hf buffer p t c tail hd htail
    have hseg : (10 : Nat) ∉ seg := hf seg (List.mem_cons_self _ _)
    have hrest : ∀ l ∈ rest, (10 : Nat) ∉ l :=
      fun l hl => hf l (List.mem_cons_of_mem _ hl)
    have hd2 : buffer.drop p = seg ++ 10 :: (segsJoin rest ++ tail) := by
      rw [hd, segsJoin_cons]
      simp
    have hn : nextAux [] buffer p t c .exhausted =
        .line seg (if t = 0 then c else t) (if t = 0 then c + 1 else c)
          ⟨buffer, p + (seg.length + 1), if t = 0 then c else t,
            (if t = 0 then c + 1 else c) + 1, [], .exhausted⟩ := by
      rw [nextAux_nil,
        scanResult_delim (segsJoin rest ++ tail) t c [] .exhausted hseg hd2]
    have hdrop2 : buffer.drop (p + (seg.length + 1)) = segsJoin rest ++ tail := by
      rw [← List.drop_drop, hd2]
      have h6 : seg ++ 10 :: (segsJoin rest ++ tail) =
          (seg ++ [10]) ++ (segsJoin rest ++ tail) := by simp
      rw [h6]
      have hl : (seg ++ [10]).length = seg.length + 1 := by simp
      rw [← hl, List.drop_left]
    obtain ⟨lines, s2, hrun, hmap⟩ :=
      ih hrest buffer (p + (seg.length + 1)) (if t = 0 then c else t)
        ((if t = 0 then c + 1 else c) + 1) tail hdrop2 htail
    refine ⟨(seg, if t = 0 then c else t, if t = 0 then c + 1 else c) :: lines,
      s2, ?_, by simp [hmap]⟩
    have e1 : run (⟨buffer, p, t, c, [], .exhausted⟩ : LineIterator) =
        (run ⟨buffer, p + (seg.length + 1), if t = 0 then c else t,
          (if t = 0 then c + 1 else c) + 1, [], .exhausted⟩).prepend
          (seg, if t = 0 then c else t, if t = 0 then c + 1 else c) :=
      run_eq_line (by rw [next_mk]; exact hn)
    rw [e1, hrun]
    rfl

theorem scanNone_nil_zero : scanNone [] 0 := by
  constructor
  · intro h
    simp [readline] at h
  · intro h
    exact absurd rfl h.1

/-- Feeding a single payload chunk to a fresh reader is the same as starting
from a reader whose buffer already holds the chunk's bytes. -/
theorem run_init_single (bytes : List Nat) (e : StreamEnd) (c : Nat) :
    run (LineIterator.init [Chunk.payloadPart bytes] e c) =
      run ⟨bytes, 0, 0, c, [], e⟩ := by
  apply run_congr
  have h1 : (LineIterator.init [Chunk.payloadPart bytes] e c).next =
      nextAux [Chunk.payloadPart bytes] [] 0 0 c e := rfl
  rw [h1, nextAux_cons_payload 0 c scanNone_nil_zero, List.nil_append, next_mk]

/-! ## How `ttft` evolves -/

theorem readline_split : ∀ (r : List Nat), (readline r).getLast? = some 10 →
    ∃ l rest, (10 : Nat) ∉ l ∧ r = l ++ 10 :: rest ∧ readline r = l ++ [10] := by
  intro r
  induction r with
  | nil => intro h; simp [readline] at h
  | cons b bs ih =>
    intro h
    by_cases hb : b = 10
    · subst hb
      exact ⟨[], bs, by simp, rfl, by simp [readline]⟩
    · have hline : readline (b :: bs) = b :: readline bs := by
        simp [readline, hb]
      rw [hline] at h
      cases hrl : readline bs with
      | nil =>
        rw [hrl] at h
        simp at h
        exact absurd h hb
      | cons y ys =>
        rw [hrl, List.getLast?_cons_cons] at h
        rw [← hrl] at h
        obtain ⟨l, rest, hl10, hsplit, hrlbs⟩ := ih h
        refine ⟨b :: l, rest, ?_, by rw [hsplit]; rfl, ?_⟩
        · intro hmem
          rcases List.mem_cons.mp hmem with h1 | h2
          · exact hb h1.symm
          · exact hl10 h2
        · rw [hline, hrlbs]
          rfl

/-- What a fired scan tells us: either the normal path fired on a region
starting with a delimited line (and `ttft` was filled in if unset), or the
truncation path fired on a single-byte region (and `ttft` was left alone). -/
theorem scanResult_line_ttft {buffer : List Nat} {p t c : Nat}
    {ch : List Chunk} {e : StreamEnd} {res : NextResult}
    (h : scanResult buffer p t c ch e = some res) :
    (∃ l r, (10 : Nat) ∉ l ∧ buffer.drop p = l ++ 10 :: r ∧
      res = .line l (if t = 0 then c else t) (if t = 0 then c + 1 else c)
        ⟨buffer, p + (l.length + 1), if t = 0 then c else t,
          (if t = 0 then c + 1 else c) + 1, ch, e⟩)
    ∨ (∃ x, x ≠ 10 ∧ buffer.drop p = [x] ∧
      res = .line [x] t c ⟨buffer, p + 1, t, c + 1, ch, e⟩) := by
  simp only [scanResult] at h
  split at h
  · rename_i h1
    obtain ⟨l, rest, hl10, hsplit, hrl⟩ := readline_split (buffer.drop p) h1
    left
    refine ⟨l, rest, hl10, hsplit, ?_⟩
    have hd : (readline (buffer.drop p)).dropLast = l := by
      rw [hrl]
      simp
    have hlen : (readline (buffer.drop p)).length = l.length + 1 := by
      rw [hrl]
      simp
    have hres := Option.some.inj h
    rw [← hres, hd, hlen]
  · split at h
    · rename_i h1 h2
      right
      have hne : buffer.drop p ≠ [] := region_ne_nil_of_readline h2.1
      have hplen : p < buffer.length := by
        have h5 : (buffer.drop p).length = buffer.length - p := List.length_drop p buffer
        have h6 : (buffer.drop p).length ≠ 0 :=
          fun hc => hne (List.eq_nil_of_length_eq_zero hc)
        omega
      have hlen1 : (buffer.drop p).length = 1 := by
        have h5 : (buffer.drop p).length = buffer.length - p := List.length_drop p buffer
        omega
      obtain ⟨x, hx⟩ := List.length_eq_one.mp hlen1
      have hx10 : x ≠ 10 := by
        intro hc
        subst hc
        rw [hx] at h1
        simp [readline] at h1
      have hrl : readline (buffer.drop p) = [x] := by
        rw [hx]
        exact readline_no_delim (by simp; omega)
      refine ⟨x, hx10, hx, ?_⟩
      have hres := Option.some.inj h
      rw [← hres, hrl]
    · exact absurd h (by simp)

/-- A produced line either came from the normal newline path — the region at
the original cursor starts with the line plus a delimiter, and `ttft` ends
up at the scan-time clock if it was unset — or from the truncation path — a
single undelimited byte, with `ttft` untouched.  In both paths the returned
first timestamp is the (possibly just-set) `ttft` field. -/
theorem nextAux_line_ttft : ∀ (chunks : List Chunk) (buffer : List Nat)
    (p t c : Nat) (e : StreamEnd) {l : List Nat} {t1 t2 : Nat}
    {s2 : LineIterator}, nextAux chunks buffer p t c e = .line l t1 t2 s2 →
    ((∃ r, (10 : Nat) ∉ l ∧ s2.buffer.drop p = l ++ 10 :: r) ∧
      s2.ttft = (if t = 0 then c else t) ∧ t1 = s2.ttft)
    ∨ ((∃ x, x ≠ 10 ∧ l = [x] ∧ s2.buffer.drop p = [x]) ∧
      s2.ttft = t ∧ t1 = t) := by
  intro chunks
  induction chunks with
  | nil =>
    intro buffer p t c e l t1 t2 s2 h
    rw [nextAux_nil] at h
    cases hs : scanResult buffer p t c [] e with
    | some res =>
      rw [hs] at h
      rcases scanResult_line_ttft hs with ⟨l0, r0, h10, hd, hres⟩ | ⟨x, hx, hd, hres⟩
      · rw [hres] at h
        cases h
        exact Or.inl ⟨⟨r0, h10, hd⟩, rfl, rfl⟩
      · rw [hres] at h
        cases h
        exact Or.inr ⟨⟨x, hx, rfl, hd⟩, rfl, rfl⟩
    | none =>
      rw [hs] at h
      cases e with
      | exhausted =>
        by_cases hp : p < buffer.length
        · rw [if_pos hp] at h
          exact absurd h (by simp)
        · rw [if_neg hp] at h
          exact absurd h (by simp)
      | raiseError msg => exact absurd h (by simp)
  | cons ch rest ih =>
    intro buffer p t c e l t1 t2 s2 h
    rw [nextAux_cons] at h
    cases hs : scanResult buffer p t c (ch :: rest) e with
    | some res =>
      rw [hs] at h
      rcases scanResult_line_ttft hs with ⟨l0, r0, h10, hd, hres⟩ | ⟨x, hx, hd, hres⟩
      · rw [hres] at h
        cases h
        exact Or.inl ⟨⟨r0, h10, hd⟩, rfl, rfl⟩
      · rw [hres] at h
        cases h
        exact Or.inr ⟨⟨x, hx, rfl, hd⟩, rfl, rfl⟩
    | none =>
      rw [hs] at h
      cases ch with
      | payloadPart bs => exact ih (buffer ++ bs) p t c e h
      | unknown raw => exact ih buffer p t c e h

/-! ## Unrecognized chunks are invisible -/

/-- Whether and how the scan fires does not depend on the pending chunk
list or the stream ending: they are only packed into the returned state. -/
theorem scanResult_cases (buffer : List Nat) (p t c : Nat) (ch : List Chunk)
    (e : StreamEnd) :
    scanResult buffer p t c ch e = none ∨
      ∃ l t1 t2 p2 t3 c3,
        scanResult buffer p t c ch e =
          some (.line l t1 t2 ⟨buffer, p2, t3, c3, ch, e⟩) ∧
        ∀ (ch2 : List Chunk) (e2 : StreamEnd),
          scanResult buffer p t c ch2 e2 =
            some (.line l t1 t2 ⟨buffer, p2, t3, c3, ch2, e2⟩) := by
  by_cases h1 : (readline (buffer.drop p)).getLast? = some 10
  · right
    refine ⟨(readline (buffer.drop p)).dropLast, if t = 0 then c else t,
      if t = 0 then c + 1 else c, p + (readline (buffer.drop p)).length,
      if t = 0 then c else t, (if t = 0 then c + 1 else c) + 1, ?_, ?_⟩
    · simp only [scanResult]
      rw [if_pos h1]
    · intro ch2 e2
      simp only [scanResult]
      rw [if_pos h1]
  · by_cases h2 : readline (buffer.drop p) ≠ [] ∧ p = buffer.length - 1
    · right
      refine ⟨readline (buffer.drop p), t, c, p + 1, t, c + 1, ?_, ?_⟩
      · simp only [scanResult]
        rw [if_neg h1, if_pos h2]
      · intro ch2 e2
        simp only [scanResult]
        rw [if_neg h1, if_pos h2]
    · left
      simp only [scanResult]
      rw [if_neg h1, if_neg h2]

/-- One `__next__` call on a stream carrying an extra unrecognized chunk:
either it behaves exactly as without that chunk (the chunk was consumed and
skipped, or never reached in an already-terminal state), or both runs
produce the same line with the same timestamps, same buffer, cursor, `ttft`
and clock, the unrecognized chunk still pending on the left. -/
theorem nextAux_unknown_mid : ∀ (pre : List Chunk) (raw : List Nat)
    (post : List Chunk) (buffer : List Nat) (p t c : Nat) (e : StreamEnd),
    nextAux (pre ++ Chunk.unknown raw :: post) buffer p t c e =
      nextAux (pre ++ post) buffer p t c e ∨
    ∃ l t1 t2 b2 p2 t3 c3 pre2,
      nextAux (pre ++ Chunk.unknown raw :: post) buffer p t c e =
        .line l t1 t2 ⟨b2, p2, t3, c3, pre2 ++ Chunk.unknown raw :: post, e⟩ ∧
      nextAux (pre ++ post) buffer p t c e =
        .line l t1 t2 ⟨b2, p2, t3, c3, pre2 ++ post, e⟩ := by
  intro pre
  induction pre with
  | nil =>
    intro raw post buffer p t c e
    rcases scanResult_cases buffer p t c (Chunk.unknown raw :: post) e with
      hn | ⟨l, t1, t2, p2, t3, c3, hsome, hall⟩
    · left
      have hsn := (scanResult_eq_none_iff t c (Chunk.unknown raw :: post) e).mp hn
      rw [List.nil_append, List.nil_append,
        nextAux_cons_unknown t c hsn]
    · right
      refine ⟨l, t1, t2, buffer, p2, t3, c3, [], ?_, ?_⟩
      · rw [List.nil_append, nextAux_cons, hsome]
      · rw [List.nil_append]
        cases post with
        | nil => rw [nextAux_nil, hall [] e]
        | cons q qs => rw [nextAux_cons, hall (q :: qs) e]
  | cons ch pre2 ih =>
    intro raw post buffer p t c e
    rcases scanResult_cases buffer p t c
        (ch :: (pre2 ++ Chunk.unknown raw :: post)) e with
      hn | ⟨l, t1, t2, p2, t3, c3, hsome, hall⟩
    · have hsn := (scanResult_eq_none_iff t c
        (ch :: (pre2 ++ Chunk.unknown raw :: post)) e).mp hn
      cases ch with
      | payloadPart bs =>
        rw [List.cons_append, List.cons_append,
          nextAux_cons_payload t c hsn, nextAux_cons_payload t c hsn]
        exact ih raw post (buffer ++ bs) p t c e
      | unknown raw2 =>
        rw [List.cons_append, List.cons_append,
          nextAux_cons_unknown t c hsn, nextAux_cons_unknown t c hsn]
        exact ih raw post buffer p t c e
    · right
      refine ⟨l, t1, t2, buffer, p2, t3, c3, ch :: pre2, ?_, ?_⟩
      · rw [List.cons_append, nextAux_cons, hsome]
      · rw [List.cons_append, nextAux_cons,
          hall (ch :: (pre2 ++ post)) e]

/-- Iterating to exhaustion is invariant under removing an unrecognized
chunk anywhere in the stream: same lines, same timestamps, same final
state. -/
theorem run_unknown_mid : ∀ (n : Nat) (pre : List Chunk) (raw : List Nat)
    (post : List Chunk) (buffer : List Nat) (p t c : Nat) (e : StreamEnd),
    weight ⟨buffer, p, t, c, pre ++ Chunk.unknown raw :: post, e⟩ ≤ n →
    run ⟨buffer, p, t, c, pre ++ Chunk.unknown raw :: post, e⟩ =
      run ⟨buffer, p, t, c, pre ++ post, e⟩ := by
  intro n
  induction n with
  | zero =>
    intro pre raw post buffer p t c e hw
    exfalso
    simp [weight, List.map_append, List.sum_append, chunkSize] at hw
  | succ n ih =>
    intro pre raw post buffer p t c e hw
    rcases nextAux_unknown_mid pre raw post buffer p t c e with
      heq | ⟨l, t1, t2, b2, p2, t3, c3, pre2, h1, h2⟩
    · exact run_congr (by rw [next_mk, next_mk, heq])
    · have hn1 : (⟨buffer, p, t, c, pre ++ Chunk.unknown raw :: post, e⟩ :
          LineIterator).next =
          .line l t1 t2 ⟨b2, p2, t3, c3, pre2 ++ Chunk.unknown raw :: post, e⟩ := by
        rw [next_mk]; exact h1
      have hn2 : (⟨buffer, p, t, c, pre ++ post, e⟩ : LineIterator).next =
          .line l t1 t2 ⟨b2, p2, t3, c3, pre2 ++ post, e⟩ := by
        rw [next_mk]; exact h2
      rw [run_eq_line hn1, run_eq_line hn2]
      have hw1 := next_line_weight hn1
      rw [ih pre2 raw post b2 p2 t3 c3 e (by omega)]

/-! ## The driver loop computed with always-sufficient fuel -/

theorem weight_clock (s : LineIterator) (c2 : Nat) :
    weight { s with clock := c2 } = weight s :=
  rfl

theorem driveLoopF_isSome : ∀ (fuel : Nat) (s : LineIterator)
    (jb itt : List Nat) (mr : Nat), weight s < fuel →
    (driveLoopF fuel s jb itt mr).isSome = true := by
  intro fuel
  induction fuel with
  | zero => intro s jb itt mr h; omega
  | succ n ih =>
    intro s jb itt mr h
    cases hn : s.next with
    | line l t1 t2 s2 =>
      have hw := next_line_weight hn
      have h3 := ih { s2 with clock := s2.clock + 2 } (jb ++ l)
        (itt ++ [s2.clock - mr]) (s2.clock + 1)
        (by rw [weight_clock]; omega)
      cases hr : driveLoopF n { s2 with clock := s2.clock + 2 } (jb ++ l)
          (itt ++ [s2.clock - mr]) (s2.clock + 1) with
      | none => rw [hr] at h3; simp at h3
      | some r => simp [driveLoopF, hn, hr]
    | stop s2 => simp [driveLoopF, hn]
    | raises msg s2 => simp [driveLoopF, hn]
    | diverge s2 => simp [driveLoopF, hn]

theorem driveLoopF_congr_fuel : ∀ (f1 f2 : Nat) (s : LineIterator)
    (jb itt : List Nat) (mr : Nat), weight s < f1 → weight s < f2 →
    driveLoopF f1 s jb itt mr = driveLoopF f2 s jb itt mr := by
  intro f1
  induction f1 with
  | zero => intro f2 s jb itt mr h; omega
  | succ n ih =>
    intro f2 s jb itt mr h1 h2
    cases f2 with
    | zero => omega
    | succ m =>
      cases hn : s.next with
      | line l t1 t2 s2 =>
        have hw := next_line_weight hn
        simp only [driveLoopF, hn]
        rw [ih m { s2 with clock := s2.clock + 2 } (jb ++ l)
          (itt ++ [s2.clock - mr]) (s2.clock + 1)
          (by rw [weight_clock]; omega) (by rw [weight_clock]; omega)]
      | stop s2 => simp only [driveLoopF, hn]
      | raises msg s2 => simp only [driveLoopF, hn]
      | diverge s2 => simp only [driveLoopF, hn]

theorem driveLoopF_driveLoop {s : LineIterator} {jb itt : List Nat}
    {mr : Nat} {fuel : Nat} (h : weight s < fuel) :
    driveLoopF fuel s jb itt mr = some (driveLoop s jb itt mr) := by
  have h1 : driveLoopF fuel s jb itt mr =
      driveLoopF (weight s + 1) s jb itt mr :=
    driveLoopF_congr_fuel fuel (weight s + 1) s jb itt mr h (by omega)
  have h2 := driveLoopF_isSome (weight s + 1) s jb itt mr (by omega)
  cases hr : driveLoopF (weight s + 1) s jb itt mr with
  | none => rw [hr] at h2; simp at h2
  | some r =>
    rw [h1, hr]
    unfold driveLoop
    rw [hr]
    rfl

/-- One-step unfolding of the driver loop. -/
theorem driveLoop_eq (s : LineIterator) (jb itt : List Nat) (mr : Nat) :
    driveLoop s jb itt mr =
      (match s.next with
       | .line l _ _ s2 =>
         driveLoop { s2 with clock := s2.clock + 2 } (jb ++ l)
           (itt ++ [s2.clock - mr]) (s2.clock + 1)
       | .stop s2 => .done jb itt s2
       | .raises msg s2 => .failed msg jb itt s2
       | .diverge s2 => .hang jb itt s2) := by
  have h1 : driveLoopF (weight s + 1) s jb itt mr =
      some (driveLoop s jb itt mr) := driveLoopF_driveLoop (by omega)
  cases hn : s.next with
  | line l t1 t2 s2 =>
    have hw := next_line_weight hn
    have h2 : driveLoopF (weight s + 1) s jb itt mr =
        driveLoopF (weight s) { s2 with clock := s2.clock + 2 } (jb ++ l)
          (itt ++ [s2.clock - mr]) (s2.clock + 1) := by
      simp only [driveLoopF, hn]
    have h3 : driveLoopF (weight s) { s2 with clock := s2.clock + 2 } (jb ++ l)
        (itt ++ [s2.clock - mr]) (s2.clock + 1) =
        some (driveLoop { s2 with clock := s2.clock + 2 } (jb ++ l)
          (itt ++ [s2.clock - mr]) (s2.clock + 1)) :=
      driveLoopF_driveLoop (by rw [weight_clock]; omega)
    rw [h2, h3] at h1
    exact (Option.some.inj h1).symm
  | stop s2 =>
    have h2 : driveLoopF (weight s + 1) s jb itt mr =
        some (.done jb itt s2) := by
      simp only [driveLoopF, hn]
    rw [h2] at h1
    exact (Option.some.inj h1).symm
  | raises msg s2 =>
    have h2 : driveLoopF (weight s + 1) s jb itt mr =
        some (.failed msg jb itt s2) := by
      simp only [driveLoopF, hn]
    rw [h2] at h1
    exact (Option.some.inj h1).symm
  | diverge s2 =>
    have h2 : driveLoopF (weight s + 1) s jb itt mr =
        some (.hang jb itt s2) := by
      simp only [driveLoopF, hn]
    rw [h2] at h1
    exact (Option.some.inj h1).symm

/-! ## Line structure does not depend on the timing fields -/

/-- Two `__next__` results that agree on everything except the timing
fields (`ttft`, clock, returned timestamps). -/
inductive NRSkel : NextResult → NextResult → Prop where
  | line (l : List Nat) (t1 t2 t1' t2' : Nat) (b2 : List Nat) (p2 : Nat)
      (t3 c3 t3' c3' : Nat) (ch2 : List Chunk) (e2 : StreamEnd) :
      NRSkel (.line l t1 t2 ⟨b2, p2, t3, c3, ch2, e2⟩)
        (.line l t1' t2' ⟨b2, p2, t3', c3', ch2, e2⟩)
  | stop (b2 : List Nat) (p2 t3 c3 t3' c3' : Nat) (ch2 : List Chunk)
      (e2 : StreamEnd) :
      NRSkel (.stop ⟨b2, p2, t3, c3, ch2, e2⟩) (.stop ⟨b2, p2, t3', c3', ch2, e2⟩)
  | raises (msg : String) (b2 : List Nat) (p2 t3 c3 t3' c3' : Nat)
      (ch2 : List Chunk) (e2 : StreamEnd) :
      NRSkel (.raises msg ⟨b2, p2, t3, c3, ch2, e2⟩)
        (.raises msg ⟨b2, p2, t3', c3', ch2, e2⟩)
  | diverge (b2 : List Nat) (p2 t3 c3 t3' c3' : Nat) (ch2 : List Chunk)
      (e2 : StreamEnd) :
      NRSkel (.diverge ⟨b2, p2, t3, c3, ch2, e2⟩)
        (.diverge ⟨b2, p2, t3', c3', ch2, e2⟩)

theorem nextAux_nil_of_scanNone {buffer : List Nat} {p : Nat} (t c : Nat)
    (hs : scanNone buffer p) :
    nextAux [] buffer p t c .exhausted =
      if p < buffer.length then .diverge ⟨buffer, p, t, c, [], .exhausted⟩
      else .stop ⟨buffer, p, t, c, [], .exhausted⟩ := by
  rw [nextAux_nil, (scanResult_eq_none_iff t c [] .exhausted).mpr hs]

theorem nextAux_nil_raises_of_scanNone {buffer : List Nat} {p : Nat}
    (t c : Nat) (msg : String) (hs : scanNone buffer p) :
    nextAux [] buffer p t c (.raiseError msg) =
      .raises msg ⟨buffer, p, t, c, [], .raiseError msg⟩ := by
  rw [nextAux_nil, (scanResult_eq_none_iff t c [] (.raiseError msg)).mpr hs]

theorem scanResult_skel (buffer : List Nat) (p t c t' c' : Nat)
    (ch : List Chunk) (e : StreamEnd) :
    (scanResult buffer p t c ch e = none ∧ scanResult buffer p t' c' ch e = none)
    ∨ ∃ r r', scanResult buffer p t c ch e = some r ∧
        scanResult buffer p t' c' ch e = some r' ∧ NRSkel r r' := by
  by_cases h1 : (readline (buffer.drop p)).getLast? = some 10
  · right
    refine ⟨.line (readline (buffer.drop p)).dropLast (if t = 0 then c else t)
        (if t = 0 then c + 1 else c)
        ⟨buffer, p + (readline (buffer.drop p)).length, if t = 0 then c else t,
          (if t = 0 then c + 1 else c) + 1, ch, e⟩,
      .line (readline (buffer.drop p)).dropLast (if t' = 0 then c' else t')
        (if t' = 0 then c' + 1 else c')
        ⟨buffer, p + (readline (buffer.drop p)).length, if t' = 0 then c' else t',
          (if t' = 0 then c' + 1 else c') + 1, ch, e⟩, ?_, ?_, ?_⟩
    · simp only [scanResult]; rw [if_pos h1]
    · simp only [scanResult]; rw [if_pos h1]
    · exact NRSkel.line _ _ _ _ _ _ _ _ _ _ _ _ _
  · by_cases h2 : readline (buffer.drop p) ≠ [] ∧ p = buffer.length - 1
    · right
      refine ⟨.line (readline (buffer.drop p)) t c ⟨buffer, p + 1, t, c + 1, ch, e⟩,
        .line (readline (buffer.drop p)) t' c' ⟨buffer, p + 1, t', c' + 1, ch, e⟩,
        ?_, ?_, ?_⟩
      · simp only [scanResult]; rw [if_neg h1, if_pos h2]
      · simp only [scanResult]; rw [if_neg h1, if_pos h2]
      · exact NRSkel.line _ _ _ _ _ _ _ _ _ _ _ _ _
    · left
      constructor
      · simp only [scanResult]; rw [if_neg h1, if_neg h2]
      · simp only [scanResult]; rw [if_neg h1, if_neg h2]

theorem nextAux_skel : ∀ (chunks : List Chunk) (buffer : List Nat)
    (p t c t' c' : Nat) (e : StreamEnd),
    NRSkel (nextAux chunks buffer p t c e) (nextAux chunks buffer p t' c' e) := by
  intro chunks
  induction chunks with
  | nil =>
    intro buffer p t c t' c' e
    rcases scanResult_skel buffer p t c t' c' [] e with ⟨hn1, hn2⟩ |
      ⟨r, r', h1, h2, hsk⟩
    · have hsn := (scanResult_eq_none_iff t c [] e).mp hn1
      cases e with
      | exhausted =>
        rw [nextAux_nil_of_scanNone t c hsn, nextAux_nil_of_scanNone t' c' hsn]
        by_cases hp : p < buffer.length
        · rw [if_pos hp, if_pos hp]
          exact NRSkel.diverge _ _ _ _ _ _ _ _
        · rw [if_neg hp, if_neg hp]
          exact NRSkel.stop _ _ _ _ _ _ _ _
      | raiseError msg =>
        rw [nextAux_nil_raises_of_scanNone t c msg hsn,
          nextAux_nil_raises_of_scanNone t' c' msg hsn]
        exact NRSkel.raises _ _ _ _ _ _ _ _ _
    · have e1 : nextAux [] buffer p t c e = r := by
        rw [nextAux_nil, h1]
      have e2 : nextAux [] buffer p t' c' e = r' := by
        rw [nextAux_nil, h2]
      rw [e1, e2]
      exact hsk
  | cons ch rest ih =>
    intro buffer p t c t' c' e
    rcases scanResult_skel buffer p t c t' c' (ch :: rest) e with ⟨hn1, hn2⟩ |
      ⟨r, r', h1, h2, hsk⟩
    · have hsn := (scanResult_eq_none_iff t c (ch :: rest) e).mp hn1
      cases ch with
      | payloadPart bs =>
        rw [nextAux_cons_payload t c hsn, nextAux_cons_payload t' c' hsn]
        exact ih (buffer ++ bs) p t c t' c' e
      | unknown raw =>
        rw [nextAux_cons_unknown t c hsn, nextAux_cons_unknown t' c' hsn]
        exact ih buffer p t c t' c' e
    · have e1 : nextAux (ch :: rest) buffer p t c e = r := by
        rw [nextAux_cons, h1]
      have e2 : nextAux (ch :: rest) buffer p t' c' e = r' := by
        rw [nextAux_cons, h2]
      rw [e1, e2]
      exact hsk

/-- The byte contents of the produced lines, in order. -/
def RunResult.fsts : RunResult → List (List Nat)
  | .finished lines _ => lines.map (fun q => q.1)
  | .raised _ lines _ => lines.map (fun q => q.1)
  | .diverged lines _ => lines.map (fun q => q.1)

/-- How a run ended: `some none` — clean end of stream, `some (some msg)` —
a propagated transport exception, `none` — a hanging `__next__` call. -/
def rstatus : RunResult → Option (Option String)
  | .finished _ _ => some none
  | .raised msg _ _ => some (some msg)
  | .diverged _ _ => none

theorem fsts_prepend (x : List Nat × Nat × Nat) (r : RunResult) :
    (r.prepend x).fsts = x.1 :: r.fsts := by
  cases r <;> rfl

theorem rstatus_prepend (x : List Nat × Nat × Nat) (r : RunResult) :
    rstatus (r.prepend x) = rstatus r := by
  cases r <;> rfl

/-- The produced line bytes and the way the run ends are independent of the
reader's `ttft` and clock fields. -/
theorem run_skel : ∀ (n : Nat) (buffer : List Nat) (p t c t' c' : Nat)
    (chunks : List Chunk) (e : StreamEnd),
    weight ⟨buffer, p, t, c, chunks, e⟩ ≤ n →
    (run ⟨buffer, p, t, c, chunks, e⟩).fsts =
      (run ⟨buffer, p, t', c', chunks, e⟩).fsts ∧
    rstatus (run ⟨buffer, p, t, c, chunks, e⟩) =
      rstatus (run ⟨buffer, p, t', c', chunks, e⟩) := by
  intro n
  induction n using Nat.strong_induction_on with
  | _ n ih =>
    intro buffer p t c t' c' chunks e hw
    have hsk := nextAux_skel chunks buffer p t c t' c' e
    generalize hx : nextAux chunks buffer p t c e = X at hsk
    generalize hy : nextAux chunks buffer p t' c' e = Y at hsk
    cases hsk with
    | line l t1 t2 t1' t2' b2 p2 t3 c3 t3' c3' ch2 e2 =>
      have hn1 : (⟨buffer, p, t, c, chunks, e⟩ : LineIterator).next =
          .line l t1 t2 ⟨b2, p2, t3, c3, ch2, e2⟩ := by rw [next_mk, hx]
      have hn2 : (⟨buffer, p, t', c', chunks, e⟩ : LineIterator).next =
          .line l t1' t2' ⟨b2, p2, t3', c3', ch2, e2⟩ := by rw [next_mk, hy]
      have hw1 := next_line_weight hn1
      rw [run_eq_line hn1, run_eq_line hn2, fsts_prepend, fsts_prepend,
        rstatus_prepend, rstatus_prepend]
      have hrec := ih (weight ⟨b2, p2, t3, c3, ch2, e2⟩) (by omega) b2 p2 t3 c3
        t3' c3' ch2 e2 (Nat.le_refl _)
      exact ⟨by rw [hrec.1], hrec.2⟩
    | stop b2 p2 t3 c3 t3' c3' ch2 e2 =>
      have hn1 : (⟨buffer, p, t, c, chunks, e⟩ : LineIterator).next =
          .stop ⟨b2, p2, t3, c3, ch2, e2⟩ := by rw [next_mk, hx]
      have hn2 : (⟨buffer, p, t', c', chunks, e⟩ : LineIterator).next =
          .stop ⟨b2, p2, t3', c3', ch2, e2⟩ := by rw [next_mk, hy]
      rw [run_eq_stop hn1, run_eq_stop hn2]
      exact ⟨rfl, rfl⟩
    | raises msg b2 p2 t3 c3 t3' c3' ch2 e2 =>
      have hn1 : (⟨buffer, p, t, c, chunks, e⟩ : LineIterator).next =
          .raises msg ⟨b2, p2, t3, c3, ch2, e2⟩ := by rw [next_mk, hx]
      have hn2 : (⟨buffer, p, t', c', chunks, e⟩ : LineIterator).next =
          .raises msg ⟨b2, p2, t3', c3', ch2, e2⟩ := by rw [next_mk, hy]
      rw [run_eq_raises hn1, run_eq_raises hn2]
      exact ⟨rfl, rfl⟩
    | diverge b2 p2 t3 c3 t3' c3' ch2 e2 =>
      have hn1 : (⟨buffer, p, t, c, chunks, e⟩ : LineIterator).next =
          .diverge ⟨b2, p2, t3, c3, ch2, e2⟩ := by rw [next_mk, hx]
      have hn2 : (⟨buffer, p, t', c', chunks, e⟩ : LineIterator).next =
          .diverge ⟨b2, p2, t3', c3', ch2, e2⟩ := by rw [next_mk, hy]
      rw [run_eq_diverge hn1, run_eq_diverge hn2]
      exact ⟨rfl, rfl⟩

theorem driveLoop_eq_line {s s2 : LineIterator} {l : List Nat} {t1 t2 : Nat}
    (jb itt : List Nat) (mr : Nat) (h : s.next = .line l t1 t2 s2) :
    driveLoop s jb itt mr =
      driveLoop { s2 with clock := s2.clock + 2 } (jb ++ l)
        (itt ++ [s2.clock - mr]) (s2.clock + 1) := by
  rw [driveLoop_eq, h]

theorem driveLoop_eq_stop {s s2 : LineIterator} (jb itt : List Nat) (mr : Nat)
    (h : s.next = .stop s2) : driveLoop s jb itt mr = .done jb itt s2 := by
  rw [driveLoop_eq, h]

theorem driveLoop_eq_raises {s s2 : LineIterator} {msg : String}
    (jb itt : List Nat) (mr : Nat) (h : s.next = .raises msg s2) :
    driveLoop s jb itt mr = .failed msg jb itt s2 := by
  rw [driveLoop_eq, h]

theorem driveLoop_eq_diverge {s s2 : LineIterator} (jb itt : List Nat)
    (mr : Nat) (h : s.next = .diverge s2) :
    driveLoop s jb itt mr = .hang jb itt s2 := by
  rw [driveLoop_eq, h]

theorem rstatus_raised_inv {r : RunResult} {msg : String}
    (h : rstatus r = some (some msg)) :
    ∃ lines s2, r = .raised msg lines s2 := by
  cases r with
  | finished lines s2 => simp [rstatus] at h
  | raised m lines s2 =>
    simp [rstatus] at h
    exact ⟨lines, s2, by rw [h]⟩
  | diverged lines s2 => simp [rstatus] at h

/-- The driver loop accumulates exactly one inter-token entry per line the
reader produces and concatenates exactly the produced line bytes, both when
the stream drains cleanly and when a transport exception cuts it short. -/
theorem driveLoop_run_corr : ∀ (n : Nat) (s : LineIterator)
    (jb itt : List Nat) (mr : Nat), weight s ≤ n →
    (∀ msg lines sx, run s = .raised msg lines sx →
      ∃ jb2 itt2 sx2, driveLoop s jb itt mr = .failed msg jb2 itt2 sx2 ∧
        itt2.length = itt.length + lines.length ∧
        jb2 = jb ++ (lines.map (fun q => q.1)).flatten) ∧
    (∀ lines sx, run s = .finished lines sx →
      ∃ itt2 sx2, driveLoop s jb itt mr =
          .done (jb ++ (lines.map (fun q => q.1)).flatten) itt2 sx2 ∧
        itt2.length = itt.length + lines.length) := by
  intro n
  induction n using Nat.strong_induction_on with
  | _ n ih =>
    intro s jb itt mr hw
    cases hn : s.next with
    | line l t1 t2 s2 =>
      obtain ⟨b2, p2, t3, c3, ch2, e2⟩ := s2
      have hw1 := next_line_weight hn
      have hwlt : weight ⟨b2, p2, t3, c3 + 2, ch2, e2⟩ < n := by
        have : weight (⟨b2, p2, t3, c3 + 2, ch2, e2⟩ : LineIterator) =
            weight ⟨b2, p2, t3, c3, ch2, e2⟩ := rfl
        omega
      have hskel := run_skel (weight ⟨b2, p2, t3, c3, ch2, e2⟩) b2 p2 t3 c3 t3
        (c3 + 2) ch2 e2 (Nat.le_refl _)
      constructor
      · intro msg lines sx hr
        rw [run_eq_line hn] at hr
        cases hr2 : run ⟨b2, p2, t3, c3, ch2, e2⟩ with
        | finished lines2 sx2 =>
          rw [hr2] at hr
          exact absurd hr (by simp [RunResult.prepend])
        | diverged lines2 sx2 =>
          rw [hr2] at hr
          exact absurd hr (by simp [RunResult.prepend])
        | raised msg2 lines2 sx2 =>
          rw [hr2] at hr
          simp only [RunResult.prepend] at hr
          cases hr
          have hstat : rstatus (run ⟨b2, p2, t3, c3 + 2, ch2, e2⟩) =
              some (some msg) := by
            rw [← hskel.2, hr2]
            rfl
          obtain ⟨lines2', sx2', hr2'⟩ := rstatus_raised_inv hstat
          have hfsts : lines2'.map (fun q => q.1) = lines2.map (fun q => q.1) := by
            have h5 := hskel.1
            rw [hr2, hr2'] at h5
            exact h5.symm
          have hlen2 : lines2'.length = lines2.length := by
            have := congrArg List.length hfsts
            simpa using this
          obtain ⟨jb2, itt2, sx3, hdl2, hilen, hjb⟩ :=
            (ih (weight ⟨b2, p2, t3, c3 + 2, ch2, e2⟩) hwlt
              ⟨b2, p2, t3, c3 + 2, ch2, e2⟩ (jb ++ l) (itt ++ [c3 - mr])
              (c3 + 1) (Nat.le_refl _)).1 msg lines2' sx2' hr2'
          refine ⟨jb2, itt2, sx3, ?_, ?_, ?_⟩
          · rw [driveLoop_eq_line jb itt mr hn]
            exact hdl2
          · simp at hilen
            simp
            omega
          · rw [hjb, hfsts]
            simp
      · intro lines sx hr
        rw [run_eq_line hn] at hr
        cases hr2 : run ⟨b2, p2, t3, c3, ch2, e2⟩ with
        | raised msg2 lines2 sx2 =>
          rw [hr2] at hr
          exact absurd hr (by simp [RunResult.prepend])
        | diverged lines2 sx2 =>
          rw [hr2] at hr
          exact absurd hr (by simp [RunResult.prepend])
        | finished lines2 sx2 =>
          rw [hr2] at hr
          simp only [RunResult.prepend] at hr
          cases hr
          have hstat : rstatus (run ⟨b2, p2, t3, c3 + 2, ch2, e2⟩) =
              some none := by
            rw [← hskel.2, hr2]
            rfl
          have hfin : ∃ lines2' sx2',
              run ⟨b2, p2, t3, c3 + 2, ch2, e2⟩ = .finished lines2' sx2' := by
            cases hq : run ⟨b2, p2, t3, c3 + 2, ch2, e2⟩ with
            | finished a b => exact ⟨a, b, rfl⟩
            | raised m a b => rw [hq] at hstat; simp [rstatus] at hstat
            | diverged a b => rw [hq] at hstat; simp [rstatus] at hstat
          obtain ⟨lines2', sx2', hr2'⟩ := hfin
          have hfsts : lines2'.map (fun q => q.1) = lines2.map (fun q => q.1) := by
            have h5 := hskel.1
            rw [hr2, hr2'] at h5
            exact h5.symm
          have hlen2 : lines2'.length = lines2.length := by
            have := congrArg List.length hfsts
            simpa using this
          obtain ⟨itt2, sx3, hdl2, hilen⟩ :=
            (ih (weight ⟨b2, p2, t3, c3 + 2, ch2, e2⟩) hwlt
              ⟨b2, p2, t3, c3 + 2, ch2, e2⟩ (jb ++ l) (itt ++ [c3 - mr])
              (c3 + 1) (Nat.le_refl _)).2 lines2' sx2' hr2'
          refine ⟨itt2, sx3, ?_, ?_⟩
          · rw [driveLoop_eq_line jb itt mr hn]
            rw [hdl2, hfsts]
            simp
          · simp at hilen
            simp
            omega
    | stop s2 =>
      constructor
      · intro msg lines sx hr
        rw [run_eq_stop hn] at hr
        exact absurd hr (by simp)
      · intro lines sx hr
        rw [run_eq_stop hn] at hr
        cases hr
        exact ⟨itt, s2, by rw [driveLoop_eq_stop jb itt mr hn]; simp, by simp⟩
    | raises msg2 s2 =>
      constructor
      · intro msg lines sx hr
        rw [run_eq_raises hn] at hr
        cases hr
        exact ⟨jb, itt, s2, by rw [driveLoop_eq_raises jb itt mr hn], by simp,
          by simp⟩
      · intro lines sx hr
        rw [run_eq_raises hn] at hr
        exact absurd hr (by simp)
    | diverge s2 =>
      constructor
      · intro msg lines sx hr
        rw [run_eq_diverge hn] at hr
        exact absurd hr (by simp)
      · intro lines sx hr
        rw [run_eq_diverge hn] at hr
        exact absurd hr (by simp)

/-! ## Association-list dictionary lemmas -/

theorem dictGet_cons_self {a : String × Nat} {d : List (String × Nat)}
    {k : String} (h : a.1 = k) : dictGet (a :: d) k = some a.2 := by
  have hb : (a.1 == k) = true := by simp [h]
  simp [dictGet, List.find?_cons, hb]

theorem dictGet_cons_ne {a : String × Nat} {d : List (String × Nat)}
    {k : String} (h : ¬ a.1 = k) : dictGet (a :: d) k = dictGet d k := by
  have hb : (a.1 == k) = false := by simp [h]
  simp [dictGet, List.find?_cons, hb]

theorem dictContains_cons (a : String × Nat) (d : List (String × Nat))
    (k : String) :
    dictContains (a :: d) k = ((a.1 == k) || dictContains d k) := by
  simp [dictContains]

theorem dictContains_of_get {d : List (String × Nat)} {k : String} {v : Nat}
    (h : dictGet d k = some v) : dictContains d k = true := by
  induction d with
  | nil => simp [dictGet] at h
  | cons a d2 ih =>
    rw [dictContains_cons]
    by_cases hk : a.1 = k
    · simp [hk]
    · rw [dictGet_cons_ne hk] at h
      simp [ih h]

theorem dictSet_of_contains {d : List (String × Nat)} {k : String} (v : Nat)
    (h : dictContains d k = true) :
    dictSet d k v = d.map (fun p => if p.1 == k then (k, v) else p) := by
  unfold dictSet
  rw [if_pos h]

theorem dictSet_of_not_contains {d : List (String × Nat)} {k : String}
    (v : Nat) (h : ¬ dictContains d k = true) :
    dictSet d k v = d ++ [(k, v)] := by
  unfold dictSet
  rw [if_neg h]

theorem dictGet_map_overwrite : ∀ (d : List (String × Nat)) (k : String)
    (v : Nat), dictContains d k = true →
    dictGet (d.map (fun p => if p.1 == k then (k, v) else p)) k = some v := by
  intro d k v
  induction d with
  | nil => intro h; simp [dictContains] at h
  | cons a d2 ih =>
    intro h
    by_cases hk : a.1 = k
    · rw [List.map_cons, if_pos (by simp [hk])]
      exact dictGet_cons_self rfl
    · rw [dictContains_cons] at h
      have h2 : dictContains d2 k = true := by
        simpa [hk] using h
      rw [List.map_cons, if_neg (by simpa using hk)]
      rw [dictGet_cons_ne hk]
      exact ih h2

theorem dictGet_append_right {d : List (String × Nat)} {k : String}
    (d2 : List (String × Nat)) (h : ¬ dictContains d k = true) :
    dictGet (d ++ d2) k = dictGet d2 k := by
  induction d with
  | nil => rfl
  | cons a d3 ih =>
    rw [dictContains_cons] at h
    have hk : ¬ a.1 = k := by
      intro hk
      exact h (by simp [hk])
    have h2 : ¬ dictContains d3 k = true := by
      intro h3
      exact h (by simp [h3])
    rw [List.cons_append, dictGet_cons_ne hk]
    exact ih h2

theorem dictGet_set_self (d : List (String × Nat)) (k : String) (v : Nat) :
    dictGet (dictSet d k v) k = some v := by
  by_cases hc : dictContains d k = true
  · rw [dictSet_of_contains v hc]
    exact dictGet_map_overwrite d k v hc
  · rw [dictSet_of_not_contains v hc, dictGet_append_right _ hc]
    exact dictGet_cons_self rfl

theorem dictGet_map_overwrite_ne : ∀ (d : List (String × Nat))
    (k k2 : String) (v : Nat), k2 ≠ k →
    dictGet (d.map (fun p => if p.1 == k then (k, v) else p)) k2 =
      dictGet d k2 := by
  intro d k k2 v h
  induction d with
  | nil => rfl
  | cons a d2 ih =>
    by_cases hk : a.1 = k
    · rw [List.map_cons, if_pos (by simp [hk])]
      rw [dictGet_cons_ne (by simpa using fun hc => h hc.symm)]
      rw [dictGet_cons_ne (by rw [hk]; exact fun hc => h hc.symm)]
      exact ih
    · rw [List.map_cons, if_neg (by simpa using hk)]
      by_cases hak2 : a.1 = k2
      · rw [dictGet_cons_self hak2, dictGet_cons_self hak2]
      · rw [dictGet_cons_ne hak2, dictGet_cons_ne hak2]
        exact ih

theorem dictGet_set_ne (d : List (String × Nat)) (k k2 : String) (v : Nat)
    (h : k2 ≠ k) : dictGet (dictSet d k v) k2 = dictGet d k2 := by
  by_cases hc : dictContains d k = true
  · rw [dictSet_of_contains v hc]
    exact dictGet_map_overwrite_ne d k k2 v h
  · rw [dictSet_of_not_contains v hc]
    induction d with
    | nil =>
      exact dictGet_cons_ne (by simpa using fun hc2 => h hc2.symm)
    | cons a d2 ih =>
      rw [dictContains_cons] at hc
      have h2 : ¬ dictContains d2 k = true := by
        intro h3
        exact hc (by simp [h3])
      by_cases hak2 : a.1 = k2
      · rw [List.cons_append, dictGet_cons_self hak2, dictGet_cons_self hak2]
      · rw [List.cons_append, dictGet_cons_ne hak2, dictGet_cons_ne hak2]
        exact ih h2

theorem dictContains_del_self (d : List (String × Nat)) (k : String) :
    dictContains (dictDel d k) k = false := by
  induction d with
  | nil => rfl
  | cons a d2 ih =>
    by_cases hk : a.1 = k
    · simp only [dictDel, List.filter_cons]
      rw [if_neg (by simp [hk])]
      simpa [dictDel] using ih
    · simp only [dictDel, List.filter_cons]
      rw [if_pos (by simpa using hk)]
      rw [dictContains_cons]
      simp only [Bool.or_eq_false_iff]
      exact ⟨by simpa using hk, by simpa [dictDel] using ih⟩

theorem dictGet_del_ne (d : List (String × Nat)) (k k2 : String)
    (h : k2 ≠ k) : dictGet (dictDel d k) k2 = dictGet d k2 := by
  induction d with
  | nil => rfl
  | cons a d2 ih =>
    by_cases hk : a.1 = k
    · have hk2 : ¬ a.1 = k2 := by
        rw [hk]
        exact fun hc => h hc.symm
      simp only [dictDel, List.filter_cons]
      rw [if_neg (by simp [hk])]
      rw [dictGet_cons_ne hk2]
      simpa [dictDel] using ih
    · simp only [dictDel, List.filter_cons]
      rw [if_pos (by simpa using hk)]
      by_cases hak2 : a.1 = k2
      · rw [dictGet_cons_self hak2, dictGet_cons_self hak2]
      · rw [dictGet_cons_ne hak2, dictGet_cons_ne hak2]
        simpa [dictDel] using ih

theorem dictGet_isSome_of_contains {d : List (String × Nat)} {k : String}
    (h : dictContains d k = true) : ∃ v, dictGet d k = some v := by
  induction d with
  | nil => simp [dictContains] at h
  | cons a d2 ih =>
    by_cases hk : a.1 = k
    · exact ⟨a.2, dictGet_cons_self hk⟩
    · rw [dictContains_cons] at h
      have h2 : dictContains d2 k = true := by simpa [hk] using h
      obtain ⟨v, hv⟩ := ih h2
      exact ⟨v, by rw [dictGet_cons_ne hk]; exact hv⟩

/-- The renaming transmits the `max_tokens` value under `max_new_tokens`. -/
theorem renameMaxTokens_get {sp : List (String × Nat)} {v : Nat}
    (h : dictGet sp "max_tokens" = some v) :
    dictGet (renameMaxTokens sp) "max_new_tokens" = some v := by
  unfold renameMaxTokens
  rw [if_pos (dictContains_of_get h)]
  rw [dictGet_del_ne _ _ _ (by decide)]
  rw [show (dictGet sp "max_tokens").getD 0 = v by rw [h]; rfl]
  exact dictGet_set_self sp "max_new_tokens" v

/-- The renamed parameters never carry the original `max_tokens` key. -/
theorem renameMaxTokens_no_max_tokens {sp : List (String × Nat)}
    (hc : dictContains sp "max_tokens" = true) :
    dictContains (renameMaxTokens sp) "max_tokens" = false := by
  unfold renameMaxTokens
  rw [if_pos hc]
  exact dictContains_del_self _ _

/-- All sampling parameters other than the two renamed keys are
transmitted unchanged. -/
theorem renameMaxTokens_other (sp : List (String × Nat)) (k : String)
    (h1 : k ≠ "max_tokens") (h2 : k ≠ "max_new_tokens") :
    dictGet (renameMaxTokens sp) k = dictGet sp k := by
  unfold renameMaxTokens
  by_cases hc : dictContains sp "max_tokens" = true
  · rw [if_pos hc, dictGet_del_ne _ _ _ h1, dictGet_set_ne _ _ _ _ h2]
  · rw [if_neg hc]

/-! ## Helper scan facts for the claim theorems -/

theorem scanNone_of_empty {buffer : List Nat} {p : Nat}
    (h : buffer.drop p = []) : scanNone buffer p := by
  unfold scanNone
  rw [h]
  constructor
  · simp [readline]
  · simp [readline]

theorem scanNone_of_long {buffer : List Nat} {p : Nat} {r : List Nat}
    (hr : buffer.drop p = r) (h10 : (10 : Nat) ∉ r) (hlen : 2 ≤ r.length) :
    scanNone buffer p :=
  (scanResult_eq_none_iff 0 0 [] .exhausted).mp
    (scanResult_long 0 0 [] .exhausted hr h10 hlen)

/-! ## The claims -/

/-- C1: counterexample.  The payload chunks `"a"` and `"b\nc"` concatenate
to `"ab\nc"` — one newline-terminated segment (`"ab"`) followed by a single
undelimited tail byte (`"c"`), so the claim predicts exactly 1+1 = 2 lines.
The reader produces three lines, `"a"`, `"b"`, `"c"`: after the first chunk
the truncation path fires mid-stream (one unconsumed byte at the buffer
end) and splits `"ab"` into two fragments. -/
theorem C1_counterexample :
    ([97, 98, 10, 99] : List Nat) = [97, 98] ++ [10] ++ [99] ∧
    (run (LineIterator.init
      [Chunk.payloadPart [97], Chunk.payloadPart [98, 10, 99]]
      .exhausted 1)).fsts = [[97], [98], [99]] ∧
    ¬ (run (LineIterator.init
      [Chunk.payloadPart [97], Chunk.payloadPart [98, 10, 99]]
      .exhausted 1)).fsts.length = 1 + 1 :=
  ⟨rfl, rfl, by decide⟩

/-- C1 (amended): when the `k` newline-terminated segments and the single
undelimited tail byte arrive as **one** payload chunk — so no chunk
boundary ever leaves exactly one unconsumed byte at the buffer end
mid-stream — iterating the reader to exhaustion produces exactly `k+1`
lines, the last being the single tail byte. -/
theorem C1_amended (segs : List (List Nat)) (t c : Nat)
    (hsegs : ∀ l ∈ segs, (10 : Nat) ∉ l) (ht : t ≠ 10) :
    ∃ lines s2,
      run (LineIterator.init [Chunk.payloadPart (segsJoin segs ++ [t])]
        .exhausted c) = .finished lines s2 ∧
      lines.map (fun q => q.1) = segs ++ [[t]] ∧
      lines.length = segs.length + 1 := by
  rw [run_init_single]
  obtain ⟨lines, s2, hrun, hmap⟩ :=
    run_drain segs hsegs (segsJoin segs ++ [t]) 0 0 c [t] (by simp)
      (Or.inr ⟨t, ht, rfl⟩)
  have hmap2 : lines.map (fun q => q.1) = segs ++ [[t]] := by
    rw [hmap]
    simp
  refine ⟨lines, s2, hrun, hmap2, ?_⟩
  have h5 := congrArg List.length hmap2
  simpa using h5

/-- C1: witness for the amended claim at one segment `"a"` and tail `"]"`. -/
theorem C1_witness :
    ∃ lines s2,
      run (LineIterator.init [Chunk.payloadPart (segsJoin [[97]] ++ [93])]
        .exhausted 1) = .finished lines s2 ∧
      lines.map (fun q => q.1) = [[97]] ++ [[93]] ∧
      lines.length = 1 + 1 := by
  have h := C1_amended [[97]] 93 1 (by decide) (by decide)
  simpa using h

/-- C2: counterexample.  A single payload chunk `"]"` with no newline: the
first (and only) line is produced by the truncation path, which never
assigns `ttft`; the produced triple carries `ttft = 0` and the reader's
`ttft` field is still 0 afterwards — not a nonzero timestamp. -/
theorem C2_counterexample :
    ∃ s2, run (LineIterator.init [Chunk.payloadPart [93]] .exhausted 1) =
      .finished [([93], 0, 1)] s2 ∧ s2.ttft = 0 :=
  ⟨⟨[93], 1, 0, 2, [], .exhausted⟩, rfl, rfl⟩

/-- C2 (amended): `ttft` is assigned at most once, and only by the normal
newline-delimited path.  For every produced line: if `ttft` was already
nonzero it is unchanged and reported; if it was zero and the line came from
the normal path (the region at the old cursor starts with the line plus a
delimiter), `ttft` becomes a nonzero timestamp and is reported; if it was
zero and the line came from the truncation path, `ttft` stays 0 and 0 is
reported. -/
theorem C2_amended (s : LineIterator) (l : List Nat) (t1 t2 : Nat)
    (s2 : LineIterator) (hc : 0 < s.clock) (h : s.next = .line l t1 t2 s2) :
    (s.ttft ≠ 0 → s2.ttft = s.ttft ∧ t1 = s.ttft) ∧
    (s.ttft = 0 →
      ((∃ r, s2.buffer.drop s.read_pos = l ++ 10 :: r) →
        s2.ttft ≠ 0 ∧ t1 = s2.ttft) ∧
      (¬ (∃ r, s2.buffer.drop s.read_pos = l ++ 10 :: r) →
        s2.ttft = 0 ∧ t1 = 0)) := by
  have hm := nextAux_line_ttft s.chunks s.buffer s.read_pos s.ttft s.clock
    s.ending h
  rcases hm with ⟨⟨r, h10, hd⟩, htt, ht1⟩ | ⟨⟨x, hx, hl, hd⟩, htt, ht1⟩
  · constructor
    · intro hz
      rw [if_neg hz] at htt
      exact ⟨htt, by rw [ht1, htt]⟩
    · intro hz
      rw [if_pos hz] at htt
      constructor
      · intro _
        exact ⟨by rw [htt]; omega, ht1⟩
      · intro hcon
        exact absurd ⟨r, hd⟩ hcon
  · constructor
    · intro hz
      exact ⟨htt, by rw [ht1]⟩
    · intro hz
      constructor
      · rintro ⟨r, hr⟩
        rw [hl] at hr
        rw [hd] at hr
        have h5 := congrArg List.length hr
        simp at h5
      · intro _
        rw [htt, hz, ht1, hz]
        exact ⟨rfl, rfl⟩

/-- C2: witness for the amended claim — a chunk `"a\n"` produces its first
line through the normal path and sets `ttft` to the nonzero timestamp 1,
which is also the reported first component. -/
theorem C2_witness :
    (⟨[97, 10], 2, 1, 3, [], .exhausted⟩ : LineIterator).ttft ≠ 0 ∧
    (1 : Nat) = (⟨[97, 10], 2, 1, 3, [], .exhausted⟩ : LineIterator).ttft := by
  have h := C2_amended ⟨[], 0, 0, 1, [Chunk.payloadPart [97, 10]], .exhausted⟩
    [97] 1 2 ⟨[97, 10], 2, 1, 3, [], .exhausted⟩ (by decide) rfl
  exact (h.2 rfl).1 ⟨[], by decide⟩

/-- C3: counterexample.  A single payload chunk `"ab"` — two unconsumed
bytes with no delimiter: after the transport is exhausted the next call
neither produces a line nor signals end-of-stream; the embedding marks it
divergent and the literal fuelled translation of the `while True` loop
exhausts 50 units of fuel (one per loop iteration) without returning. -/
theorem C3_counterexample :
    run (LineIterator.init [Chunk.payloadPart [97, 98]] .exhausted 1) =
      .diverged [] ⟨[97, 98], 0, 0, 1, [], .exhausted⟩ ∧
    nextF ⟨[97, 98], 0, 0, 1, [], .exhausted⟩ 50 = none :=
  ⟨rfl, rfl⟩

/-- C3 (amended): once the transport is exhausted, a call with the cursor
at the buffer end signals end-of-stream; but when two or more unconsumed
delimiter-free bytes remain, the call never returns — the loop rescans an
unchanged state forever (certified against the fuelled translation `nextF`
for every amount of fuel) — so the line sequence is *not* finite-by-
termination in that case. -/
theorem C3_amended (buffer : List Nat) (p t c : Nat) :
    (buffer.length ≤ p →
      (⟨buffer, p, t, c, [], .exhausted⟩ : LineIterator).next =
        .stop ⟨buffer, p, t, c, [], .exhausted⟩) ∧
    (∀ r, buffer.drop p = r → (10 : Nat) ∉ r → 2 ≤ r.length →
      (⟨buffer, p, t, c, [], .exhausted⟩ : LineIterator).next =
        .diverge ⟨buffer, p, t, c, [], .exhausted⟩ ∧
      ∀ fuel, nextF ⟨buffer, p, t, c, [], .exhausted⟩ fuel = none) := by
  constructor
  · intro h
    rw [next_mk]
    exact nextAux_nil_stop t c h
  · intro r hr h10 hlen
    have hd : nextAux [] buffer p t c .exhausted =
        .diverge ⟨buffer, p, t, c, [], .exhausted⟩ :=
      nextAux_nil_diverge t c hr h10 hlen
    exact ⟨by rw [next_mk]; exact hd,
      nextF_of_diverge [] buffer p t c .exhausted hd⟩

/-- C3: witness for the amended claim — divergence on the two-byte
delimiter-free tail `"ab"`, and clean end-of-stream once the cursor has
consumed the whole buffer. -/
theorem C3_witness :
    (⟨[97, 98], 0, 0, 1, [], .exhausted⟩ : LineIterator).next =
      .diverge ⟨[97, 98], 0, 0, 1, [], .exhausted⟩ ∧
    nextF ⟨[97, 98], 0, 0, 1, [], .exhausted⟩ 7 = none ∧
    (⟨[97, 98], 2, 0, 1, [], .exhausted⟩ : LineIterator).next =
      .stop ⟨[97, 98], 2, 0, 1, [], .exhausted⟩ := by
  have h1 := (C3_amended [97, 98] 0 0 1).2 [97, 98] rfl (by decide) (by decide)
  have h2 := (C3_amended [97, 98] 2 0 1).1 (by decide)
  exact ⟨h1.1, h1.2 7, h2⟩

/-- C4: counterexample.  Chunk A = `"a"` ends mid-line and chunk B =
`"b\n"` completes it, yet the reader emits two fragments `"a"` and `"b"`
instead of the one correct line `"ab"`: the unfinished portion left by
chunk A is exactly one byte at the buffer end, which triggers the
truncation path before chunk B is ever pulled. -/
theorem C4_counterexample :
    (run (LineIterator.init [Chunk.payloadPart [97], Chunk.payloadPart [98, 10]]
      .exhausted 1)).fsts = [[97], [98]] ∧
    ¬ ([[97], [98]] : List (List Nat)) = [[97, 98]] :=
  ⟨rfl, by decide⟩

/-- C4 (amended): a line interrupted by a chunk boundary is produced as one
single correct line whenever the unfinished portion left by the first chunk
is empty or at least two bytes long; when it is exactly one byte at the end
of the buffer, the truncation path fires first and the line is produced as
two separate fragments. -/
theorem C4_amended (a b : List Nat) (c : Nat) (ha : (10 : Nat) ∉ a)
    (hb : (10 : Nat) ∉ b) :
    ((a = [] ∨ 2 ≤ a.length) →
      ∃ s2, run (LineIterator.init
          [Chunk.payloadPart a, Chunk.payloadPart (b ++ [10])] .exhausted c) =
        .finished [(a ++ b, c, c + 1)] s2) ∧
    (∀ x, x ≠ 10 → a = [x] →
      (run (LineIterator.init
          [Chunk.payloadPart a, Chunk.payloadPart (b ++ [10])] .exhausted c)).fsts
        = [[x], b]) := by
  have hab : (10 : Nat) ∉ a ++ b := by
    intro hm
    rcases List.mem_append.mp hm with h1 | h2
    · exact ha h1
    · exact hb h2
  constructor
  · intro hlen
    -- step 1: consume chunk A on the empty buffer
    have h1 : (LineIterator.init
        [Chunk.payloadPart a, Chunk.payloadPart (b ++ [10])] .exhausted c).next =
        nextAux [Chunk.payloadPart (b ++ [10])] a 0 0 c .exhausted := by
      rw [show (LineIterator.init
          [Chunk.payloadPart a, Chunk.payloadPart (b ++ [10])] .exhausted c).next =
          nextAux [Chunk.payloadPart a, Chunk.payloadPart (b ++ [10])] [] 0 0 c
            .exhausted from rfl,
        nextAux_cons_payload 0 c scanNone_nil_zero, List.nil_append]
    -- step 2: the scan on buffer `a` does not fire
    have hscan : scanNone a 0 := by
      rcases hlen with h0 | h2
      · subst h0
        exact scanNone_of_empty rfl
      · exact scanNone_of_long (List.drop_zero a) ha h2
    have h2 : nextAux [Chunk.payloadPart (b ++ [10])] a 0 0 c .exhausted =
        nextAux [] (a ++ (b ++ [10])) 0 0 c .exhausted :=
      nextAux_cons_payload 0 c hscan
    -- step 3: the full line is now delimited in the buffer
    have hd : (a ++ (b ++ [10])).drop 0 = (a ++ b) ++ 10 :: [] := by
      simp
    have h3 : nextAux [] (a ++ (b ++ [10])) 0 0 c .exhausted =
        .line (a ++ b) c (c + 1)
          ⟨a ++ (b ++ [10]), 0 + ((a ++ b).length + 1), c, c + 2, [],
            .exhausted⟩ := by
      rw [nextAux_nil, scanResult_delim [] 0 c [] .exhausted hab hd]
      rfl
    have hnext : (LineIterator.init
        [Chunk.payloadPart a, Chunk.payloadPart (b ++ [10])] .exhausted c).next =
        .line (a ++ b) c (c + 1)
          ⟨a ++ (b ++ [10]), 0 + ((a ++ b).length + 1), c, c + 2, [],
            .exhausted⟩ := by
      rw [h1, h2, h3]
    -- step 4: afterwards the buffer is fully consumed
    have hstop : nextAux [] (a ++ (b ++ [10])) (0 + ((a ++ b).length + 1)) c
        (c + 2) .exhausted =
        .stop ⟨a ++ (b ++ [10]), 0 + ((a ++ b).length + 1), c, c + 2, [],
          .exhausted⟩ :=
      nextAux_nil_stop c (c + 2) (by simp; omega)
    refine ⟨⟨a ++ (b ++ [10]), 0 + ((a ++ b).length + 1), c, c + 2, [],
      .exhausted⟩, ?_⟩
    rw [run_eq_line hnext, run_eq_stop (by rw [next_mk]; exact hstop)]
    rfl
  · intro x hx h0
    subst h0
    -- chunk A = [x]: the truncation path fires before chunk B is pulled
    have h1 : (LineIterator.init
        [Chunk.payloadPart [x], Chunk.payloadPart (b ++ [10])] .exhausted c).next =
        nextAux [Chunk.payloadPart (b ++ [10])] [x] 0 0 c .exhausted := by
      rw [show (LineIterator.init
          [Chunk.payloadPart [x], Chunk.payloadPart (b ++ [10])] .exhausted c).next =
          nextAux [Chunk.payloadPart [x], Chunk.payloadPart (b ++ [10])] [] 0 0 c
            .exhausted from rfl,
        nextAux_cons_payload 0 c scanNone_nil_zero, List.nil_append]
    have h2 : nextAux [Chunk.payloadPart (b ++ [10])] [x] 0 0 c .exhausted =
        .line [x] 0 c
          ⟨[x], 1, 0, c + 1, [Chunk.payloadPart (b ++ [10])], .exhausted⟩ := by
      rw [nextAux_cons, scanResult_single 0 c [Chunk.payloadPart (b ++ [10])]
        .exhausted hx (List.drop_zero [x])]
    -- second line: chunk B is consumed and `b` is delimited
    have h3 : ([x] : List Nat).drop 1 = [] := by simp
    have h4 : (⟨[x], 1, 0, c + 1, [Chunk.payloadPart (b ++ [10])], .exhausted⟩ :
        LineIterator).next = nextAux [] ([x] ++ (b ++ [10])) 1 0 (c + 1)
          .exhausted := by
      rw [next_mk, nextAux_cons_payload 0 (c + 1) (scanNone_of_empty h3)]
    have hd2 : ([x] ++ (b ++ [10])).drop 1 = b ++ 10 :: [] := by
      simp
    have h5 : nextAux [] ([x] ++ (b ++ [10])) 1 0 (c + 1) .exhausted =
        .line b (c + 1) (c + 2)
          ⟨[x] ++ (b ++ [10]), 1 + (b.length + 1), c + 1, c + 3, [],
            .exhausted⟩ := by
      rw [nextAux_nil, scanResult_delim [] 0 (c + 1) [] .exhausted hb hd2]
      rfl
    have hstop : nextAux [] ([x] ++ (b ++ [10])) (1 + (b.length + 1)) (c + 1)
        (c + 3) .exhausted =
        .stop ⟨[x] ++ (b ++ [10]), 1 + (b.length + 1), c + 1, c + 3, [],
          .exhausted⟩ :=
      nextAux_nil_stop (c + 1) (c + 3) (by simp; omega)
    rw [run_eq_line (by rw [h1]; exact h2),
      run_eq_line (by rw [h4]; exact h5),
      run_eq_stop (by rw [next_mk]; exact hstop)]
    rfl

/-- C4: witness for the amended claim — with chunk A = `"ab"` (two bytes)
and chunk B = `"c\n"` the reader produces the one correct line `"abc"`,
while with chunk A = `"a"` (one byte) and the same chunk B it produces the
two fragments `"a"` and `"c"`. -/
theorem C4_witness :
    (∃ s2, run (LineIterator.init
        [Chunk.payloadPart [97, 98], Chunk.payloadPart ([99] ++ [10])]
        .exhausted 1) = .finished [([97, 98] ++ [99], 1, 2)] s2) ∧
    (run (LineIterator.init
        [Chunk.payloadPart [97], Chunk.payloadPart ([99] ++ [10])]
        .exhausted 1)).fsts = [[97], [99]] := by
  constructor
  · exact (C4_amended [97, 98] [99] 1 (by decide) (by decide)).1
      (Or.inr (by decide))
  · exact (C4_amended [97] [99] 1 (by decide) (by decide)).2 97 (by decide) rfl

/-- C5: counterexample.  For the chunk sequence `"x"`, `"y\n"` the reader
produces the lines `"x"` and `"y"`; reinserting the delimiter after each
line reconstructs `"x\ny\n"`, which differs from the transported stream
`"xy\n"` even though that stream ends with a delimiter (so the undelimited-
tail exception does not apply). -/
theorem C5_counterexample :
    (run (LineIterator.init [Chunk.payloadPart [120], Chunk.payloadPart [121, 10]]
      .exhausted 1)).fsts = [[120], [121]] ∧
    ¬ (([[120], [121]].map (fun l => l ++ [10])).flatten =
      ([120] ++ [121, 10] : List Nat)) :=
  ⟨rfl, by decide⟩

/-- C5 (amended): for a stream delivered as a **single** payload chunk
whose bytes are newline-terminated segments optionally followed by one
undelimited tail byte, concatenating the produced lines with the delimiter
reinserted after each line reconstructs the chunk exactly — except that the
final line is not followed by a delimiter when the chunk ended with the
undelimited tail byte. -/
theorem C5_amended (segs : List (List Nat)) (tail : List Nat) (c : Nat)
    (hsegs : ∀ l ∈ segs, (10 : Nat) ∉ l)
    (htail : tail = [] ∨ ∃ x, x ≠ 10 ∧ tail = [x]) :
    ∃ lines s2,
      run (LineIterator.init [Chunk.payloadPart (segsJoin segs ++ tail)]
        .exhausted c) = .finished lines s2 ∧
      (tail = [] →
        ((lines.map (fun q => q.1)).map (fun l => l ++ [10])).flatten =
          segsJoin segs ++ tail) ∧
      (tail ≠ [] →
        ((lines.map (fun q => q.1)).dropLast.map (fun l => l ++ [10])).flatten
            ++ (lines.map (fun q => q.1)).getLastD [] =
          segsJoin segs ++ tail) := by
  rw [run_init_single]
  obtain ⟨lines, s2, hrun, hmap⟩ :=
    run_drain segs hsegs (segsJoin segs ++ tail) 0 0 c tail (by simp) htail
  refine ⟨lines, s2, hrun, ?_, ?_⟩
  · intro h0
    subst h0
    rw [if_pos rfl] at hmap
    rw [hmap]
    simp [segsJoin]
  · intro hne
    rcases htail with h0 | ⟨x, hx, h1⟩
    · exact absurd h0 hne
    · subst h1
      rw [if_neg (by simp)] at hmap
      rw [hmap]
      simp [segsJoin]

/-- C5: witness for the amended claim at one segment `"h"` and tail
`"]"`. -/
theorem C5_witness :
    ∃ lines s2,
      run (LineIterator.init [Chunk.payloadPart (segsJoin [[104]] ++ [93])]
        .exhausted 1) = .finished lines s2 ∧
      (([93] : List Nat) = [] →
        ((lines.map (fun q => q.1)).map (fun l => l ++ [10])).flatten =
          segsJoin [[104]] ++ [93]) ∧
      (([93] : List Nat) ≠ [] →
        ((lines.map (fun q => q.1)).dropLast.map (fun l => l ++ [10])).flatten
            ++ (lines.map (fun q => q.1)).getLastD [] =
          segsJoin [[104]] ++ [93]) :=
  C5_amended [[104]] [93] 1 (by decide) (Or.inr ⟨93, by decide, rfl⟩)

/-- C6: counterexample.  The transport yields one payload chunk `"x\n"`
(one line is produced, one inter-token time collected) and then raises
`"boom"`: the returned metrics carry the error message and empty generated
text, but the inter-token list is `[3]` — the partial timing collected
before the failure is reported, not discarded. -/
theorem C6_counterexample :
    send_llm_request
      [("AWS_ACCESS_KEY_ID", "a"), ("AWS_SECRET_ACCESS_KEY", "b"),
        ("AWS_REGION_NAME", "c")]
      (fun _ => .error "decode") (fun _ => 0)
      (.ok [Chunk.payloadPart [120, 10]] (.raiseError "boom"))
      ⟨("p", 3), "m", []⟩ 1 =
      .returns ⟨[3], 3, 0, some 500, some "boom"⟩ "" ⟨("p", 3), "m", []⟩ ∧
    ¬ ([3] : List Nat) = [] :=
  ⟨rfl, by decide⟩

/-- C6 (amended): on any failure — the streaming call raising, the
transport raising mid-stream, or the final JSON decode failing — the
returned metrics carry the exception's message and error code 500, the
generated text is empty and the output token count zero; but the
inter-token list holds exactly the timings collected before the failure
(one entry per line the reader produced), not an emptied list. -/
theorem C6_amended (env : List (String × String))
    (jl : List Nat → Except String JsonVal) (tl : String → Nat)
    (cfg : RequestConfig) (clock : Nat)
    (h1 : environFalsy env "AWS_ACCESS_KEY_ID" = false)
    (h2 : environFalsy env "AWS_SECRET_ACCESS_KEY" = false)
    (h3 : environFalsy env "AWS_REGION_NAME" = false) :
    (∀ msg, send_llm_request env jl tl (.raises msg) cfg clock =
      .returns ⟨[], cfg.prompt.2, 0, some 500, some msg⟩ ""
        { cfg with sampling_params := renameMaxTokens cfg.sampling_params }) ∧
    (∀ chunks endmsg msg lines sx,
      run (LineIterator.init chunks (.raiseError endmsg) (clock + 1)) =
        .raised msg lines sx →
      ∃ itt, send_llm_request env jl tl (.ok chunks (.raiseError endmsg)) cfg
          clock =
        .returns ⟨itt, cfg.prompt.2, 0, some 500, some msg⟩ ""
          { cfg with sampling_params := renameMaxTokens cfg.sampling_params } ∧
        itt.length = lines.length) ∧
    (∀ chunks ending jb itt sx msg,
      driveLoop (LineIterator.init chunks ending (clock + 1)) [] [] clock =
        .done jb itt sx →
      jl jb >>= extractContent = .error msg →
      send_llm_request env jl tl (.ok chunks ending) cfg clock =
        .returns ⟨itt, cfg.prompt.2, 0, some 500, some msg⟩ ""
          { cfg with sampling_params := renameMaxTokens cfg.sampling_params }) := by
  refine ⟨?_, ?_, ?_⟩
  · intro msg
    simp [send_llm_request, h1, h2, h3]
  · intro chunks endmsg msg lines sx hr
    obtain ⟨jb2, itt2, sx2, hdl, hlen, _⟩ :=
      (driveLoop_run_corr
        (weight (LineIterator.init chunks (.raiseError endmsg) (clock + 1)))
        (LineIterator.init chunks (.raiseError endmsg) (clock + 1)) [] [] clock
        (Nat.le_refl _)).1 msg lines sx hr
    refine ⟨itt2, ?_, by simpa using hlen⟩
    simp [send_llm_request, h1, h2, h3, hdl]
  · intro chunks ending jb itt sx msg hdl hjson
    simp [send_llm_request, h1, h2, h3, hdl, hjson]

/-- C6: witness for the amended claim — the streaming call itself raising
`"x"` yields error metrics with the message, empty text, and the (empty)
list of timings collected so far. -/
theorem C6_witness :
    send_llm_request
      [("AWS_ACCESS_KEY_ID", "a"), ("AWS_SECRET_ACCESS_KEY", "b"),
        ("AWS_REGION_NAME", "c")]
      (fun _ => .error "decode") (fun _ => 0) (.raises "x")
      ⟨("p", 3), "m", []⟩ 1 =
      .returns ⟨[], 3, 0, some 500, some "x"⟩ "" ⟨("p", 3), "m", []⟩ := by
  have h := (C6_amended
    [("AWS_ACCESS_KEY_ID", "a"), ("AWS_SECRET_ACCESS_KEY", "b"),
      ("AWS_REGION_NAME", "c")]
    (fun _ => .error "decode") (fun _ => 0) ⟨("p", 3), "m", []⟩ 1
    rfl rfl rfl).1 "x"
  exact h

/-- C7: counterexample.  An environment where all three required variables
are *present* but `AWS_ACCESS_KEY_ID` is the empty string: the driver still
raises the configuration error, refuting "when all three are present, no
configuration error is raised" — the code checks truthiness, not mere
presence. -/
theorem C7_counterexample :
    (environGet [("AWS_ACCESS_KEY_ID", ""), ("AWS_SECRET_ACCESS_KEY", "b"),
      ("AWS_REGION_NAME", "c")] "AWS_ACCESS_KEY_ID").isSome = true ∧
    (environGet [("AWS_ACCESS_KEY_ID", ""), ("AWS_SECRET_ACCESS_KEY", "b"),
      ("AWS_REGION_NAME", "c")] "AWS_SECRET_ACCESS_KEY").isSome = true ∧
    (environGet [("AWS_ACCESS_KEY_ID", ""), ("AWS_SECRET_ACCESS_KEY", "b"),
      ("AWS_REGION_NAME", "c")] "AWS_REGION_NAME").isSome = true ∧
    send_llm_request [("AWS_ACCESS_KEY_ID", ""), ("AWS_SECRET_ACCESS_KEY", "b"),
      ("AWS_REGION_NAME", "c")] (fun _ => .error "") (fun _ => 0)
      (.raises "never") ⟨("p", 1), "m", []⟩ 1 =
      .configError "AWS_ACCESS_KEY_ID must be set." := by
  refine ⟨by decide, by decide, by decide, by decide⟩

/-- C7 (amended): if any of the three required configuration values is
absent *or set to the empty string*, `send_llm_request` raises a
configuration error naming the first such value, and does so before any
network activity (the result does not depend on the transport, the JSON
decoder or the tokenizer); when all three are present and non-empty, no
configuration error is raised. -/
theorem C7_amended (env : List (String × String))
    (jl : List Nat → Except String JsonVal) (tl : String → Nat)
    (invoke : InvokeOutcome) (cfg : RequestConfig) (clock : Nat) :
    (environFalsy env "AWS_ACCESS_KEY_ID" = true →
      send_llm_request env jl tl invoke cfg clock =
        .configError "AWS_ACCESS_KEY_ID must be set.") ∧
    (environFalsy env "AWS_ACCESS_KEY_ID" = false →
      environFalsy env "AWS_SECRET_ACCESS_KEY" = true →
      send_llm_request env jl tl invoke cfg clock =
        .configError "AWS_SECRET_ACCESS_KEY must be set.") ∧
    (environFalsy env "AWS_ACCESS_KEY_ID" = false →
      environFalsy env "AWS_SECRET_ACCESS_KEY" = false →
      environFalsy env "AWS_REGION_NAME" = true →
      send_llm_request env jl tl invoke cfg clock =
        .configError "AWS_REGION_NAME must be set.") ∧
    (environFalsy env "AWS_ACCESS_KEY_ID" = false →
      environFalsy env "AWS_SECRET_ACCESS_KEY" = false →
      environFalsy env "AWS_REGION_NAME" = false →
      ∀ msg, ¬ send_llm_request env jl tl invoke cfg clock =
        .configError msg) ∧
    ((environFalsy env "AWS_ACCESS_KEY_ID" = true ∨
      environFalsy env "AWS_SECRET_ACCESS_KEY" = true ∨
      environFalsy env "AWS_REGION_NAME" = true) →
      ∀ (jl2 : List Nat → Except String JsonVal) (tl2 : String → Nat)
        (invoke2 : InvokeOutcome),
        send_llm_request env jl tl invoke cfg clock =
          send_llm_request env jl2 tl2 invoke2 cfg clock) := by
  refine ⟨?_, ?_, ?_, ?_, ?_⟩
  · intro h1
    simp [send_llm_request, h1]
  · intro h1 h2
    simp [send_llm_request, h1, h2]
  · intro h1 h2 h3
    simp [send_llm_request, h1, h2, h3]
  · intro h1 h2 h3 msg
    simp only [send_llm_request, h1, h2, h3]
    simp only [Bool.false_eq_true, if_false]
    cases invoke with
    | raises m => simp
    | ok chunks ending =>
      cases hdl : driveLoop (LineIterator.init chunks ending (clock + 1)) [] []
          clock with
      | hang a b c2 => simp [hdl]
      | failed m a b c2 => simp [hdl]
      | done jb itt sx =>
        simp only [hdl]
        cases hj : jl jb >>= extractContent with
        | error m => simp [hj]
        | ok txt => simp [hj]
  · intro hor jl2 tl2 invoke2
    by_cases h1 : environFalsy env "AWS_ACCESS_KEY_ID" = true
    · simp [send_llm_request, h1]
    · by_cases h2 : environFalsy env "AWS_SECRET_ACCESS_KEY" = true
      · simp [send_llm_request, h1, h2]
      · have h3 : environFalsy env "AWS_REGION_NAME" = true := by
          rcases hor with h | h | h
          · exact absurd h h1
          · exact absurd h h2
          · exact h
        simp [send_llm_request, h1, h2, h3]

/-- C7: witness for the amended claim — a region-less environment raises
the error naming `AWS_REGION_NAME`, and a fully-populated environment
raises no configuration error. -/
theorem C7_witness :
    send_llm_request [("AWS_ACCESS_KEY_ID", "a"), ("AWS_SECRET_ACCESS_KEY", "b")]
      (fun _ => .error "") (fun _ => 0) (.raises "never")
      ⟨("p", 1), "m", []⟩ 1 =
      .configError "AWS_REGION_NAME must be set." ∧
    ¬ send_llm_request [("AWS_ACCESS_KEY_ID", "a"),
        ("AWS_SECRET_ACCESS_KEY", "b"), ("AWS_REGION_NAME", "c")]
      (fun _ => .error "") (fun _ => 0) (.raises "never")
      ⟨("p", 1), "m", []⟩ 1 =
      .configError "AWS_REGION_NAME must be set." := by
  constructor
  · exact ((C7_amended [("AWS_ACCESS_KEY_ID", "a"),
      ("AWS_SECRET_ACCESS_KEY", "b")] (fun _ => .error "") (fun _ => 0)
      (.raises "never") ⟨("p", 1), "m", []⟩ 1).2.2.1) rfl rfl rfl
  · exact ((C7_amended [("AWS_ACCESS_KEY_ID", "a"),
      ("AWS_SECRET_ACCESS_KEY", "b"), ("AWS_REGION_NAME", "c")]
      (fun _ => .error "") (fun _ => 0) (.raises "never")
      ⟨("p", 1), "m", []⟩ 1).2.2.2.1) rfl rfl rfl
      "AWS_REGION_NAME must be set."

/-- C8: for every sampling-parameters mapping containing `"max_tokens"`
with value `v`, the parameters block of the transmitted wire payload
contains `"max_new_tokens"` with that same value `v`, does not contain
`"max_tokens"`, and every parameter under any other key is transmitted
unchanged. -/
theorem C8_max_tokens_renamed (sp : List (String × Nat)) (v : Nat)
    (prompt : String) (h : dictGet sp "max_tokens" = some v) :
    dictGet (buildWirePayload prompt (renameMaxTokens sp)).parameters
        "max_new_tokens" = some v ∧
    dictContains (buildWirePayload prompt (renameMaxTokens sp)).parameters
        "max_tokens" = false ∧
    ∀ k, k ≠ "max_tokens" → k ≠ "max_new_tokens" →
      dictGet (buildWirePayload prompt (renameMaxTokens sp)).parameters k =
        dictGet sp k := by
  refine ⟨renameMaxTokens_get h,
    renameMaxTokens_no_max_tokens (dictContains_of_get h), ?_⟩
  intro k h1 h2
  exact renameMaxTokens_other sp k h1 h2

/-- C8: witness — `{"max_tokens": 50, "temperature": 1}` goes out as
`{"temperature": 1, "max_new_tokens": 50}`. -/
theorem C8_witness :
    dictGet (buildWirePayload "p"
      (renameMaxTokens [("max_tokens", 50), ("temperature", 1)])).parameters
        "max_new_tokens" = some 50 ∧
    dictContains (buildWirePayload "p"
      (renameMaxTokens [("max_tokens", 50), ("temperature", 1)])).parameters
        "max_tokens" = false ∧
    dictGet (buildWirePayload "p"
      (renameMaxTokens [("max_tokens", 50), ("temperature", 1)])).parameters
        "temperature" =
      dictGet [("max_tokens", 50), ("temperature", 1)] "temperature" := by
  have h := C8_max_tokens_renamed [("max_tokens", 50), ("temperature", 1)] 50
    "p" (by decide)
  exact ⟨h.1, h.2.1, h.2.2 "temperature" (by decide) (by decide)⟩

/-- C9: an unrecognized chunk anywhere in the transport stream is
invisible — for every byte content of that chunk, iterating the reader to
exhaustion gives exactly the same result as without it: the same lines with
the same timestamps (so no byte of the chunk reaches any line and neither
the cursor nor `ttft` is affected) and the same termination status (it
neither ends the sequence nor surfaces as an error). -/
theorem C9_unknown_chunk_invisible (buffer : List Nat) (p t c : Nat)
    (e : StreamEnd) (raw : List Nat) (pre post : List Chunk) :
    run ⟨buffer, p, t, c, pre ++ Chunk.unknown raw :: post, e⟩ =
      run ⟨buffer, p, t, c, pre ++ post, e⟩ :=
  run_unknown_mid (weight ⟨buffer, p, t, c, pre ++ Chunk.unknown raw :: post, e⟩)
    pre raw post buffer p t c e (Nat.le_refl _)

/-- C10: whenever `send_llm_request` returns, the request configuration it
hands back carries the renamed sampling parameters — if the caller's
mapping contained `"max_tokens"`, after the call it no longer does and
carries `"max_new_tokens"` with the same value instead: the renaming is a
caller-visible in-place mutation, not confined to the wire payload. -/
theorem C10_sampling_params_mutated (env : List (String × String))
    (jl : List Nat → Except String JsonVal) (tl : String → Nat)
    (invoke : InvokeOutcome) (cfg : RequestConfig) (clock : Nat)
    (m : RequestMetrics) (txt : String) (cfg2 : RequestConfig)
    (h : send_llm_request env jl tl invoke cfg clock = .returns m txt cfg2) :
    cfg2.sampling_params = renameMaxTokens cfg.sampling_params ∧
    (dictContains cfg.sampling_params "max_tokens" = true →
      dictContains cfg2.sampling_params "max_tokens" = false ∧
      dictGet cfg2.sampling_params "max_new_tokens" =
        dictGet cfg.sampling_params "max_tokens") := by
  have hsp : cfg2.sampling_params = renameMaxTokens cfg.sampling_params := by
    unfold send_llm_request at h
    dsimp only [] at h
    split at h
    · exact absurd h (by simp)
    · split at h
      · exact absurd h (by simp)
      · split at h
        · exact absurd h (by simp)
        · split at h
          · cases h
            rfl
          · split at h
            · exact absurd h (by simp)
            · cases h
              rfl
            · split at h
              · cases h
                rfl
              · cases h
                rfl
  refine ⟨hsp, ?_⟩
  intro hc
  rw [hsp]
  refine ⟨renameMaxTokens_no_max_tokens hc, ?_⟩
  obtain ⟨v, hv⟩ := dictGet_isSome_of_contains hc
  rw [hv, renameMaxTokens_get hv]

/-- C10: witness — a call that fails at the transport still returns the
config with `{"max_tokens": 50}` rewritten to `{"max_new_tokens": 50}`. -/
theorem C10_witness :
    dictContains
        ((⟨("p", 1), "m", [("max_new_tokens", 50)]⟩ : RequestConfig).sampling_params)
        "max_tokens" = false ∧
    dictGet
        ((⟨("p", 1), "m", [("max_new_tokens", 50)]⟩ : RequestConfig).sampling_params)
        "max_new_tokens" =
      dictGet ((⟨("p", 1), "m", [("max_tokens", 50)]⟩ :
        RequestConfig).sampling_params) "max_tokens" := by
  have h := C10_sampling_params_mutated
    [("AWS_ACCESS_KEY_ID", "a"), ("AWS_SECRET_ACCESS_KEY", "b"),
      ("AWS_REGION_NAME", "c")]
    (fun _ => .error "") (fun _ => 0) (.raises "x")
    ⟨("p", 1), "m", [("max_tokens", 50)]⟩ 1
    ⟨[], 1, 0, some 500, some "x"⟩ "" ⟨("p", 1), "m", [("max_new_tokens", 50)]⟩
    (by decide)
  exact h.2 (by decide)

end SagemakerClient
